import Mathlib

/-!
Verification of the MeteorRoute fee-router daily distribution engine.

This file gives a shallow embedding of the distribution engine of
`programs/meteor-route-fee-router`:

* `state.rs` : the `ProgressPda` / `PolicyPda` records, the `ProgressPda`
  day-state methods and the pure `DistributionMath` functions;
* `streamflow.rs` : the lock-oracle record and locked-amount computation;
* `instructions/distribute_fees.rs` : the `distribute_fees` handler with its
  currency guard, pagination protocol, lock accounting, payout loop and day
  finalizer.

Machine integers are modelled as `Nat`; wrapping additions and `as`-casts of
the source are modelled with an explicit `% 2^64` / `% 2^128`, and every
`checked_*` operation returns `Except FeeRouterError`.  External collaborators
(the CP-AMM claim, the ledger clock, account keys, the SHA-256 `hashv`
primitive and the Streamflow account store) are passed in as an explicit call
environment; the 32-byte hash is an abstract function parameter over the exact
chunk lists the source feeds to `hashv`.  A failed call commits nothing on the
host ledger, so the transactional view of a call is `applyTx`: on error the
pre-state is kept.
-/

/-- Error codes of `error.rs` (`FeeRouterError`), extended with the four
variants that `instructions/distribute_fees.rs` references
(`InvalidPositionOwner`, `InvalidCpAmmProgram`, `InvalidCpAmmPda`,
`InvalidPaginationState`) and with `Panic`, which models a Rust runtime abort
(the handler divides by `page_processed`, which panics on an empty page). -/
inductive FeeRouterError where
  | BaseFeeDetected
  | InvalidPoolOrder
  | PreflightFailed
  | DayGateNotPassed
  | AlreadyDistributed
  | MissingRequiredInput
  | MinPayoutNotReached
  | PdaSeedMismatch
  | Overflow
  | InsufficientRent
  | InvalidTickRange
  | QuoteOnlyNotGuaranteed
  | InvalidY0
  | InvalidFeeShareBps
  | DayAlreadyFinalized
  | PaginationOutOfBounds
  | TransferFailed
  | LockedExceedsAllocation
  | InvalidPositionOwner
  | InvalidCpAmmProgram
  | InvalidCpAmmPda
  | InvalidPaginationState
  | Panic
  deriving DecidableEq, Repr

/-- Equality of `Except` results is decidable, so concrete runs of the
embedded code can be checked by evaluation. -/
instance {ε α : Type} [DecidableEq ε] [DecidableEq α] :
    DecidableEq (Except ε α) := fun x y =>
  match x, y with
  | .ok a, .ok b =>
    if h : a = b then .isTrue (by rw [h]) else .isFalse (by simp [h])
  | .error a, .error b =>
    if h : a = b then .isTrue (by rw [h]) else .isFalse (by simp [h])
  | .ok _, .error _ => .isFalse (by simp)
  | .error _, .ok _ => .isFalse (by simp)

/-- `PolicyPda` of `state.rs` (pubkeys and the vault seed modelled as `Nat` /
`String`; they do not enter the distribution logic). -/
structure PolicyPda where
  vault_seed : String
  authority : Nat
  investor_fee_share_bps : Nat
  daily_cap_quote_lamports : Nat
  min_payout_lamports : Nat
  policy_fund_missing_ata : Bool
  y0_total_allocation : Nat
  quote_mint : Nat
  base_mint : Nat
  pool_pubkey : Nat
  created_at : Nat
  updated_at : Nat
  deriving DecidableEq, Repr

/-- `ProgressPda` of `state.rs`. -/
structure ProgressPda where
  vault_seed : String
  last_distribution_ts : Nat
  day_epoch : Nat
  cumulative_distributed_today : Nat
  carry_over_lamports : Nat
  pagination_cursor : Nat
  page_in_progress_flag : Bool
  day_finalized_flag : Bool
  total_pages_expected : Nat
  pages_processed_today : Nat
  last_claimed_quote : Nat
  last_claimed_base : Nat
  day_total_locked : Nat
  day_investor_pool_target : Nat
  day_investor_distributed : Nat
  day_creator_remainder_target : Nat
  created_at : Nat
  updated_at : Nat
  deriving DecidableEq, Repr

namespace ProgressPda

/-- `ProgressPda::is_new_day`. -/
def is_new_day (p : ProgressPda) (current_ts : Nat) : Bool :=
  current_ts / 86400 > p.day_epoch

/-- `ProgressPda::can_start_new_day`; `Nat` subtraction is the
`saturating_sub` of the source. -/
def can_start_new_day (p : ProgressPda) (current_ts : Nat) : Bool :=
  p.last_distribution_ts = 0 || current_ts - p.last_distribution_ts ≥ 86400

/-- `ProgressPda::start_new_day`. -/
def start_new_day (p : ProgressPda) (current_ts : Nat) : ProgressPda :=
  { p with
    day_epoch := current_ts / 86400
    cumulative_distributed_today := 0
    pagination_cursor := 0
    day_finalized_flag := false
    pages_processed_today := 0
    day_total_locked := 0
    day_investor_pool_target := 0
    day_investor_distributed := 0
    day_creator_remainder_target := 0
    updated_at := current_ts }

/-- `ProgressPda::set_day_targets`. -/
def set_day_targets (p : ProgressPda)
    (total_locked investor_pool_target creator_remainder_target : Nat) :
    ProgressPda :=
  { p with
    day_total_locked := total_locked
    day_investor_pool_target := investor_pool_target
    day_creator_remainder_target := creator_remainder_target }

/-- `ProgressPda::add_investor_distribution` (checked `u64` addition). -/
def add_investor_distribution (p : ProgressPda) (amount : Nat) :
    Except FeeRouterError ProgressPda :=
  if p.day_investor_distributed + amount < 2 ^ 64 then
    .ok { p with day_investor_distributed := p.day_investor_distributed + amount }
  else
    .error .Overflow

/-- `ProgressPda::finalize_day` (the `_total_claimed` / `_creator_payout`
arguments are unused in the source as well). -/
def finalize_day (p : ProgressPda) (current_ts : Nat)
    (total_claimed creator_payout : Nat) : ProgressPda :=
  let _ := total_claimed
  let _ := creator_payout
  { p with
    day_finalized_flag := true
    last_distribution_ts := current_ts
    pagination_cursor := 0
    updated_at := current_ts }

end ProgressPda

namespace DistributionMath

/-- `DistributionMath::calculate_eligible_bps` of `state.rs`:
guards `Y0 > 0` and `locked_total ≤ Y0`, then
`min(investor_fee_share_bps, min(locked_total * 10000 / Y0, 10000))` with a
checked 128-bit multiplication. -/
def calculate_eligible_bps (locked_total y0_total_allocation
    investor_fee_share_bps : Nat) : Except FeeRouterError Nat :=
  if y0_total_allocation = 0 then
    .error .InvalidY0
  else if locked_total > y0_total_allocation then
    .error .LockedExceedsAllocation
  else if locked_total * 10000 < 2 ^ 128 then
    .ok (min investor_fee_share_bps
      (min (locked_total * 10000 / y0_total_allocation) 10000))
  else
    .error .Overflow

/-- `DistributionMath::calculate_investor_fee_quote`:
`floor(claimed_quote * eligible_bps / 10000)` with a checked multiplication. -/
def calculate_investor_fee_quote (claimed_quote eligible_bps : Nat) :
    Except FeeRouterError Nat :=
  if claimed_quote * eligible_bps < 2 ^ 128 then
    .ok (claimed_quote * eligible_bps / 10000)
  else
    .error .Overflow

/-- `DistributionMath::apply_daily_cap`; `Nat` subtraction is the
`saturating_sub` of the source. -/
def apply_daily_cap (investor_fee_quote daily_cap
    cumulative_distributed_today : Nat) : Nat :=
  if daily_cap = 0 then
    investor_fee_quote
  else
    min investor_fee_quote (daily_cap - cumulative_distributed_today)

/-- `DistributionMath::calculate_investor_payout`:
`floor(locked_amount * investor_fee_quote / locked_total)`, `0` when
`locked_total = 0`, with a checked multiplication. -/
def calculate_investor_payout (locked_amount locked_total
    investor_fee_quote : Nat) : Except FeeRouterError Nat :=
  if locked_total = 0 then
    .ok 0
  else if locked_amount * investor_fee_quote < 2 ^ 128 then
    .ok (locked_amount * investor_fee_quote / locked_total)
  else
    .error .Overflow

end DistributionMath

/-- The fields of the Streamflow lock record consumed by `streamflow.rs`. -/
structure StreamflowStream where
  deposited : Nat
  withdrawn : Nat
  recipient : Nat
  deriving DecidableEq, Repr

/-- `streamflow.rs::calculate_locked_amount`: checked `deposited - withdrawn`. -/
def calculate_locked_amount (stream : StreamflowStream) :
    Except FeeRouterError Nat :=
  if stream.withdrawn ≤ stream.deposited then
    .ok (stream.deposited - stream.withdrawn)
  else
    .error .Overflow

/-- `streamflow.rs::validate_stream_for_investor` (non-`local` build). -/
def validate_stream_for_investor (stream : StreamflowStream)
    (expected_investor : Nat) : Except FeeRouterError Unit :=
  if stream.recipient = expected_investor then
    .ok ()
  else
    .error .MissingRequiredInput

/-- One investor entry of a page, as consumed by
`instructions/distribute_fees.rs` (`inv.stream`, `inv.investor`); pubkeys are
modelled as `Nat`. -/
structure InvestorData where
  stream : Nat
  investor : Nat
  deriving DecidableEq, Repr

/-- A submitted page: index, committed 32-byte hash (modelled as the value of
the abstract hash function) and the investor list. -/
structure InvestorPage where
  page_index : Nat
  page_hash : Nat
  investors : List InvestorData
  deriving DecidableEq, Repr

/-- Little-endian byte encoding with a fixed width, as `to_le_bytes` /
`Pubkey::as_ref` produce. -/
def leBytes : Nat → Nat → List Nat
  | 0, _ => []
  | n + 1, v => v % 256 :: leBytes n (v / 256)

/-- The chunk list the handler feeds to `hashv` for one page:
`page_index.to_le_bytes()` followed by, per investor, the stream key bytes and
the investor key bytes. -/
def pageChunks (pg : InvestorPage) : List (List Nat) :=
  leBytes 8 pg.page_index ::
    (pg.investors.map (fun inv => [leBytes 32 inv.stream, leBytes 32 inv.investor])).flatten

/-- One entry of `ctx.remaining_accounts`: its key, whether its owner is the
Streamflow program, and the result of `parse_streamflow_account` (`none` for a
malformed account). -/
structure AccountSlot where
  key : Nat
  ownerOk : Bool
  parsed : Option StreamflowStream
  deriving DecidableEq, Repr

/-- The external world of one `distribute_fees` call: the clock, the amounts
sitting in the two temp accounts after the CP-AMM claim CPI, the token
orientation of the pool, the outcomes of the account-identity checks, and the
`remaining_accounts` list. -/
structure CallEnv where
  now : Nat
  feeA : Nat
  feeB : Nat
  quoteIsTokenB : Bool
  positionMatches : Bool
  cpAmmProgramValid : Bool
  streamflowProgramValid : Bool
  eventAuthorityValid : Bool
  remaining : List AccountSlot
  deriving DecidableEq, Repr

/-- The distributable (quote) amount the claim step reports. -/
def CallEnv.claimedQuote (env : CallEnv) : Nat :=
  if env.quoteIsTokenB then env.feeB else env.feeA

/-- The non-distributable (base) amount the claim step reports. -/
def CallEnv.claimedBase (env : CallEnv) : Nat :=
  if env.quoteIsTokenB then env.feeA else env.feeB

/-- The pagination loop of the handler: each page's index must equal the
running expected cursor and its hash must equal `hashv` of its chunks; the
expected cursor advances by a checked `u64` increment. Returns the final
expected cursor. -/
def validatePages (hashv : List (List Nat) → Nat) :
    List InvestorPage → Nat → Except FeeRouterError Nat
  | [], expected => .ok expected
  | pg :: rest, expected =>
    if pg.page_index = expected then
      if pg.page_hash = hashv (pageChunks pg) then
        if expected + 1 < 2 ^ 64 then
          validatePages hashv rest (expected + 1)
        else
          .error .Overflow
      else
        .error .InvalidPaginationState
    else
      .error .InvalidPaginationState

/-- Reading one investor: consume the stream slot at position `2*idx` and the
ATA slot at `2*idx+1`, check the stream key, its owner, parse it, validate the
recipient, and return the locked amount.  Both
`calculate_total_locked_from_streamflow` and `process_investor_page` perform
exactly this sequence. -/
def readInvestorSlot (remaining : List AccountSlot) (idx : Nat)
    (inv : InvestorData) : Except FeeRouterError Nat :=
  match remaining.get? (2 * idx) with
  | none => .error .MissingRequiredInput
  | some slot =>
    match remaining.get? (2 * idx + 1) with
    | none => .error .MissingRequiredInput
    | some _ =>
      if slot.key = inv.stream then
        if slot.ownerOk then
          match slot.parsed with
          | none => .error .MissingRequiredInput
          | some stream =>
            match validate_stream_for_investor stream inv.investor with
            | .error e => .error e
            | .ok _ => calculate_locked_amount stream
        else
          .error .MissingRequiredInput
      else
        .error .MissingRequiredInput

/-- `calculate_total_locked_from_streamflow`, folded over the flattened
investor list with the running slot index and a checked 128-bit running sum. -/
def calcTotalLocked (remaining : List AccountSlot) :
    List InvestorData → Nat → Nat → Except FeeRouterError Nat
  | [], _, acc => .ok acc
  | inv :: rest, idx, acc =>
    match readInvestorSlot remaining idx inv with
    | .error e => .error e
    | .ok locked =>
      if acc + locked < 2 ^ 128 then
        calcTotalLocked remaining rest (idx + 1) (acc + locked)
      else
        .error .Overflow

/-- The investor loop of `process_investor_page`, threading
`(page_distributed, transferred total, page_dust)`: zero-locked investors are
skipped, payouts below the threshold go to dust (`u64` wrapping add of the
`as u64` cast), larger ones are transferred (`raw_payout as u64`) and added to
`page_distributed` (`u128` wrapping add). -/
def pageFold (remaining : List AccountSlot) (total_locked capped minp : Nat) :
    List InvestorData → Nat → Nat × Nat × Nat →
    Except FeeRouterError (Nat × Nat × Nat)
  | [], _, acc => .ok acc
  | inv :: rest, idx, (dist, tfr, dust) =>
    match readInvestorSlot remaining idx inv with
    | .error e => .error e
    | .ok locked =>
      if locked = 0 then
        pageFold remaining total_locked capped minp rest (idx + 1)
          (dist, tfr, dust)
      else
        match DistributionMath.calculate_investor_payout locked total_locked
            capped with
        | .error e => .error e
        | .ok raw =>
          if raw < minp then
            pageFold remaining total_locked capped minp rest (idx + 1)
              (dist, tfr, (dust + raw % 2 ^ 64) % 2 ^ 64)
          else
            pageFold remaining total_locked capped minp rest (idx + 1)
              ((dist + raw) % 2 ^ 128, tfr + raw % 2 ^ 64, dust)

/-- The per-page loop of the handler (STEP 4): run `process_investor_page` on
each page (fresh page accumulators, running slot index), accumulate the call
totals with the wrapping adds of the source, and abort with a runtime panic on
an empty page (the page-result event divides by `page_processed`). -/
def handlerPages (remaining : List AccountSlot)
    (total_locked capped minp : Nat) :
    List InvestorPage → Nat → Nat × Nat × Nat →
    Except FeeRouterError (Nat × Nat × Nat)
  | [], _, acc => .ok acc
  | pg :: rest, idx, (d, t, u) =>
    match pageFold remaining total_locked capped minp pg.investors idx
        (0, 0, 0) with
    | .error e => .error e
    | .ok (pd, pt, pu) =>
      if pg.investors.length = 0 then
        .error .Panic
      else
        handlerPages remaining total_locked capped minp rest
          (idx + pg.investors.length)
          ((d + pd) % 2 ^ 128, t + pt, (u + pu) % 2 ^ 64)

/-- The flattened investor list of a call, in traversal order. -/
def joinedInvestors (pages : List InvestorPage) : List InvestorData :=
  (pages.map (·.investors)).flatten

/-- The observable transfers of one successful call. -/
structure CallOut where
  claimedQuote : Nat
  investorPaid : Nat
  creatorPaid : Nat
  dust : Nat
  deriving DecidableEq, Repr

/-- The state committed by one successful call: the Progress record and the
treasury token balance. -/
structure CallResult where
  progress : ProgressPda
  treasury : Nat
  out : CallOut
  deriving DecidableEq, Repr

/-- The tail of the handler after the payout loop (STEP 4 bookkeeping and
STEP 5): wrapping accumulation into the Progress record, the checked
`add_investor_distribution`, the checked cursor advance, the pool-target
check, and — on the final page — the expected-page-count check, the creator
remainder payout and `finalize_day`. -/
def commitStage (now quote treasury1 pagesLen : Nat) (is_final_page : Bool)
    (p3 : ProgressPda) (dTot tTot uTot : Nat) :
    Except FeeRouterError CallResult :=
  let p4 := { p3 with
    cumulative_distributed_today :=
      (p3.cumulative_distributed_today + dTot) % 2 ^ 128
    carry_over_lamports :=
      (p3.carry_over_lamports + uTot) % 2 ^ 64
    pages_processed_today :=
      (p3.pages_processed_today + pagesLen) % 2 ^ 64 }
  match p4.add_investor_distribution (dTot % 2 ^ 64) with
  | .error e => .error e
  | .ok p5a =>
    let p5 := { p5a with updated_at := now }
    if p5.pagination_cursor + pagesLen < 2 ^ 64 then
      let p6 := { p5 with pagination_cursor :=
        p5.pagination_cursor + pagesLen }
      if p6.day_investor_distributed ≤ p6.day_investor_pool_target then
        if is_final_page then
          match
            (if p6.total_pages_expected = 0 then
              .ok { p6 with total_pages_expected := p6.pagination_cursor }
            else if p6.total_pages_expected = p6.pagination_cursor then
              .ok p6
            else .error .InvalidPaginationState :
              Except FeeRouterError ProgressPda) with
          | .error e => .error e
          | .ok p7 =>
            let creator_remainder :=
              quote - p7.cumulative_distributed_today -
                p7.carry_over_lamports
            let creatorPaid := if creator_remainder > 0 then
                creator_remainder % 2 ^ 64
              else 0
            .ok ⟨p7.finalize_day now quote creator_remainder,
              treasury1 - tTot - creatorPaid,
              ⟨quote, tTot, creatorPaid, uTot⟩⟩
        else
          .ok ⟨p6, treasury1 - tTot, ⟨quote, tTot, 0, uTot⟩⟩
      else .error .Overflow
    else .error .Overflow

/-- The nonzero-claim path of the handler: pagination validation, lock
accounting, distribution math, the per-day target freeze, the payout loop,
then `commitStage`. -/
def payoutStage (hashv : List (List Nat) → Nat) (policy : PolicyPda)
    (remaining : List AccountSlot) (now quote treasury1 : Nat)
    (p2 : ProgressPda) (investor_pages : List InvestorPage)
    (is_final_page : Bool) : Except FeeRouterError CallResult :=
  match validatePages hashv investor_pages p2.pagination_cursor with
  | .error e => .error e
  | .ok _ =>
  match calcTotalLocked remaining (joinedInvestors investor_pages) 0 0 with
  | .error e => .error e
  | .ok total_locked =>
  match DistributionMath.calculate_eligible_bps total_locked
      policy.y0_total_allocation policy.investor_fee_share_bps with
  | .error e => .error e
  | .ok eligible_bps =>
  match DistributionMath.calculate_investor_fee_quote quote eligible_bps with
  | .error e => .error e
  | .ok investor_fee_quote =>
    let capped := DistributionMath.apply_daily_cap investor_fee_quote
      policy.daily_cap_quote_lamports p2.cumulative_distributed_today
    let p3 := if p2.pages_processed_today = 0 then
        p2.set_day_targets (total_locked % 2 ^ 64) (capped % 2 ^ 64)
          (quote - (capped % 2 ^ 64))
      else p2
    match handlerPages remaining total_locked capped
        policy.min_payout_lamports investor_pages 0 (0, 0, 0) with
    | .error e => .error e
    | .ok (dTot, tTot, uTot) =>
      commitStage now quote treasury1 investor_pages.length is_final_page
        p3 dTot tTot uTot

/-- The Progress record after the day-open step (STEP: new-day reset when the
derived day index advanced) and the recording of the claimed amounts
(`last_claimed_quote := quote`, `last_claimed_base := 0`). -/
def dayAdjProgress (p : ProgressPda) (now quote : Nat) : ProgressPda :=
  { (if p.is_new_day now then p.start_new_day now else p) with
    last_claimed_quote := quote
    last_claimed_base := 0 }

/-- The `distribute_fees` handler of `instructions/distribute_fees.rs`,
over the call environment, the Progress record and the treasury balance. -/
def distribute_fees (hashv : List (List Nat) → Nat) (policy : PolicyPda)
    (env : CallEnv) (progress : ProgressPda) (treasury : Nat)
    (investor_pages : List InvestorPage) (is_final_page : Bool) :
    Except FeeRouterError CallResult :=
  if env.positionMatches = false then .error .InvalidPositionOwner
  else if progress.day_finalized_flag then .error .DayAlreadyFinalized
  else if progress.is_new_day env.now &&
      !progress.can_start_new_day env.now then .error .DayGateNotPassed
  else
    if env.cpAmmProgramValid = false then .error .InvalidCpAmmProgram
    else if env.streamflowProgramValid = false then .error .MissingRequiredInput
    else if env.remaining.length ≠ 2 * (joinedInvestors investor_pages).length
      then .error .MissingRequiredInput
    else if env.eventAuthorityValid = false then .error .InvalidCpAmmPda
    else if env.claimedBase ≠ 0 then .error .BaseFeeDetected
    else
      let quote := env.claimedQuote
      let treasury1 := if quote = 0 then treasury else treasury + quote
      let p2 := dayAdjProgress progress env.now quote
      if quote = 0 then
        if is_final_page then
          .ok ⟨p2.finalize_day env.now 0 0, treasury1, ⟨0, 0, 0, 0⟩⟩
        else
          .ok ⟨p2, treasury1, ⟨0, 0, 0, 0⟩⟩
      else
        payoutStage hashv policy env.remaining env.now quote treasury1 p2
          investor_pages is_final_page

/-- Host-ledger transaction semantics: a failed call commits nothing. -/
def applyTx (pre : ProgressPda × Nat)
    (r : Except FeeRouterError CallResult) : ProgressPda × Nat :=
  match r with
  | .error _ => pre
  | .ok c => (c.progress, c.treasury)

/-- The Progress record as `initialize_progress` (lib.rs) creates it: the
assigned fields are zeroed explicitly, the rest are zero from account
initialization. -/
def initProgress (vault_seed : String) (current_ts : Nat) : ProgressPda :=
  { vault_seed := vault_seed
    last_distribution_ts := 0
    day_epoch := 0
    cumulative_distributed_today := 0
    carry_over_lamports := 0
    pagination_cursor := 0
    page_in_progress_flag := false
    day_finalized_flag := false
    total_pages_expected := 0
    pages_processed_today := 0
    last_claimed_quote := 0
    last_claimed_base := 0
    day_total_locked := 0
    day_investor_pool_target := 0
    day_investor_distributed := 0
    day_creator_remainder_target := 0
    created_at := current_ts
    updated_at := current_ts }

/-- States of the Progress record reachable by initialization followed by any
sequence of successful `distribute_fees` calls (failed calls commit nothing),
with the policy fixed across the sequence. -/
inductive Reachable (hashv : List (List Nat) → Nat) (policy : PolicyPda) :
    ProgressPda → Prop where
  | init (vault_seed : String) (ts : Nat) :
      Reachable hashv policy (initProgress vault_seed ts)
  | step {p : ProgressPda} {env : CallEnv} {treasury : Nat}
      {pages : List InvestorPage} {fin : Bool} {r : CallResult} :
      Reachable hashv policy p →
      distribute_fees hashv policy env p treasury pages fin = .ok r →
      Reachable hashv policy r.progress

/-- A concrete stand-in for the external 32-byte hash primitive, used to
instantiate the abstract `hashv` parameter on concrete scenarios. -/
def demoHash (chunks : List (List Nat)) : Nat :=
  chunks.foldl (fun a c => c.foldl (fun x b => x * 256 + b + 1) (a * 31 + 7)) 5

/-- A concrete policy: 90% ceiling, no daily cap, no minimum payout,
`Y0 = 1000`. -/
def demoPolicy : PolicyPda :=
  ⟨"vault", 1, 9000, 0, 0, false, 1000, 2, 3, 4, 0, 0⟩

/-- C7. `DistributionMath::calculate_investor_payout` returns
`floor(locked_i * capped_investor_fee_quote / total_locked)` whenever the
128-bit product `locked_i * capped_investor_fee_quote` does not overflow, and
`0` whenever `total_locked = 0`; on overflow of the product it fails with
`Overflow` instead (which is why the claim needed amending). -/
theorem C7_investor_payout (l L P : Nat) :
    (L = 0 → DistributionMath.calculate_investor_payout l L P = .ok 0) ∧
    (l * P < 2 ^ 128 →
      DistributionMath.calculate_investor_payout l L P = .ok (l * P / L)) ∧
    (L ≠ 0 → 2 ^ 128 ≤ l * P →
      DistributionMath.calculate_investor_payout l L P = .error .Overflow) := by
  refine ⟨fun h => ?_, fun h => ?_, fun hL h2 => ?_⟩
  · simp [DistributionMath.calculate_investor_payout, h]
  · rcases eq_or_ne L 0 with hL | hL
    · simp [DistributionMath.calculate_investor_payout, hL]
    · simp only [DistributionMath.calculate_investor_payout]
      rw [if_neg hL, if_pos h]
  · simp only [DistributionMath.calculate_investor_payout]
    rw [if_neg hL, if_neg (not_lt.mpr h2)]

/-- C7 witness: the 60/40 split of a 900000 pool pays 540000 and 360000,
summing exactly to the pool. -/
theorem C7_investor_payout_witness :
    DistributionMath.calculate_investor_payout 60 100 900000 = .ok 540000 ∧
    DistributionMath.calculate_investor_payout 40 100 900000 = .ok 360000 ∧
    540000 + 360000 = 900000 :=
  ⟨((C7_investor_payout 60 100 900000).2.1 (by norm_num)).trans (by norm_num),
   ((C7_investor_payout 40 100 900000).2.1 (by norm_num)).trans (by norm_num),
   by norm_num⟩

/-- C7 counterexample: at `locked_i = total_locked = pool = 2^64` the code
returns `Overflow`, not the floor `2^64` the claim promises for every
holder. -/
theorem C7_investor_payout_cex :
    DistributionMath.calculate_investor_payout (2 ^ 64) (2 ^ 64) (2 ^ 64) =
      .error .Overflow ∧
    2 ^ 64 * 2 ^ 64 / 2 ^ 64 = 2 ^ 64 := by
  refine ⟨?_, by norm_num⟩
  have h2 : (2 : Nat) ^ 128 ≤ 2 ^ 64 * 2 ^ 64 := by norm_num
  exact (C7_investor_payout (2 ^ 64) (2 ^ 64) (2 ^ 64)).2.2 (by norm_num) h2

/-- C8. `DistributionMath::calculate_eligible_bps` fails with `InvalidY0`
when `Y0 = 0`, with `LockedExceedsAllocation` when `total_locked > Y0`, and
otherwise returns `min(fee_share_ceiling_bps, floor(10000 * total_locked /
Y0))` — provided the 128-bit product `total_locked * 10000` does not overflow
(on overflow it fails with `Overflow`, which is why the claim needed
amending). -/
theorem C8_eligible_bps (L Y0 bps : Nat) :
    (Y0 = 0 →
      DistributionMath.calculate_eligible_bps L Y0 bps = .error .InvalidY0) ∧
    (Y0 ≠ 0 → L > Y0 →
      DistributionMath.calculate_eligible_bps L Y0 bps =
        .error .LockedExceedsAllocation) ∧
    (Y0 ≠ 0 → L ≤ Y0 → L * 10000 < 2 ^ 128 →
      DistributionMath.calculate_eligible_bps L Y0 bps =
        .ok (min bps (10000 * L / Y0))) := by
  refine ⟨fun h => ?_, fun hy h => ?_, fun hy hle hmul => ?_⟩
  · simp [DistributionMath.calculate_eligible_bps, h]
  · simp [DistributionMath.calculate_eligible_bps, hy, h]
  · have hf : L * 10000 / Y0 ≤ 10000 := by
      calc L * 10000 / Y0 ≤ Y0 * 10000 / Y0 :=
            Nat.div_le_div_right (Nat.mul_le_mul_right _ hle)
        _ = 10000 := by
            rw [mul_comm]
            exact Nat.mul_div_cancel _ (Nat.pos_of_ne_zero hy)
    simp only [DistributionMath.calculate_eligible_bps]
    rw [if_neg hy, if_neg (not_lt.mpr hle), if_pos hmul, min_eq_left hf,
      mul_comm L 10000]

/-- C8 witness: `total_locked = 600`, `Y0 = 1000`, ceiling `9000` bps gives
`6000` bps. -/
theorem C8_eligible_bps_witness :
    DistributionMath.calculate_eligible_bps 600 1000 9000 = .ok 6000 :=
  ((C8_eligible_bps 600 1000 9000).2.2 (by norm_num) (by norm_num)
    (by norm_num)).trans (by norm_num)

/-- C8 counterexample: at `total_locked = Y0 = 2^125` the code returns
`Overflow`, not the `min(9000, 10000) = 9000` bps the claim promises for
every `total_locked` and `Y0`. -/
theorem C8_eligible_bps_cex :
    DistributionMath.calculate_eligible_bps (2 ^ 125) (2 ^ 125) 9000 =
      .error .Overflow ∧
    min 9000 (10000 * 2 ^ 125 / 2 ^ 125) = 9000 := by
  refine ⟨?_, by norm_num⟩
  simp only [DistributionMath.calculate_eligible_bps]
  rw [if_neg (by norm_num), if_neg (by norm_num), if_neg (by norm_num)]

/-- C1. If the claim step reports a nonzero non-distributable (base) amount,
the call fails with `BaseFeeDetected`, and under the host's all-or-nothing
transaction semantics the committed state (Progress record and treasury)
equals the pre-call state — no payout or finalization occurs.  The hypotheses
state that the call reached the claim step: the position matches, the day is
not finalized, the day gate passes if a new day started, the program-identity
checks pass and the remaining-accounts count matches. -/
theorem C1_base_fee_aborts (hashv : List (List Nat) → Nat)
    (policy : PolicyPda) (env : CallEnv) (p : ProgressPda) (treasury : Nat)
    (pages : List InvestorPage) (fin : Bool)
    (hpos : env.positionMatches = true)
    (hflag : p.day_finalized_flag = false)
    (hgate : p.is_new_day env.now = true → p.can_start_new_day env.now = true)
    (hcp : env.cpAmmProgramValid = true)
    (hsf : env.streamflowProgramValid = true)
    (hlen : env.remaining.length = 2 * (joinedInvestors pages).length)
    (hev : env.eventAuthorityValid = true)
    (hbase : env.claimedBase ≠ 0) :
    distribute_fees hashv policy env p treasury pages fin =
      .error .BaseFeeDetected ∧
    applyTx (p, treasury)
      (distribute_fees hashv policy env p treasury pages fin) =
      (p, treasury) := by
  have hg : (p.is_new_day env.now && !p.can_start_new_day env.now) = false := by
    cases hnd : p.is_new_day env.now
    · rfl
    · simp [hgate hnd]
  have hmain : distribute_fees hashv policy env p treasury pages fin =
      .error .BaseFeeDetected := by
    simp [distribute_fees, hpos, hflag, hg, hcp, hsf, hev, hlen, hbase]
  exact ⟨hmain, by rw [hmain]; rfl⟩

/-- C1 witness: a concrete call whose claim yields base amount 7 fails with
`BaseFeeDetected` and commits nothing. -/
theorem C1_base_fee_aborts_witness :
    distribute_fees demoHash demoPolicy
      ⟨100, 5, 7, false, true, true, true, true, []⟩
      (initProgress "vault" 0) 0 [] false = .error .BaseFeeDetected ∧
    applyTx (initProgress "vault" 0, 0)
      (distribute_fees demoHash demoPolicy
        ⟨100, 5, 7, false, true, true, true, true, []⟩
        (initProgress "vault" 0) 0 [] false) = (initProgress "vault" 0, 0) :=
  C1_base_fee_aborts demoHash demoPolicy _ _ _ _ _ rfl rfl
    (fun h => by simp [ProgressPda.is_new_day, initProgress] at h)
    rfl rfl rfl rfl (by decide)

/-- C6. For a call whose derived day index exceeds the stored one (and which
passes the position check while the day is not finalized), the gate
`can_start_new_day` is exactly "no prior distribution or ≥ 86400 elapsed";
when it fails the call errors with `DayGateNotPassed` and commits nothing,
and a successful call implies the gate held. -/
theorem C6_day_gate (hashv : List (List Nat) → Nat) (policy : PolicyPda)
    (env : CallEnv) (p : ProgressPda) (treasury : Nat)
    (pages : List InvestorPage) (fin : Bool)
    (hpos : env.positionMatches = true)
    (hflag : p.day_finalized_flag = false)
    (hnew : p.is_new_day env.now = true) :
    (p.can_start_new_day env.now = true ↔
      (p.last_distribution_ts = 0 ∨
        86400 ≤ env.now - p.last_distribution_ts)) ∧
    (p.can_start_new_day env.now = false →
      distribute_fees hashv policy env p treasury pages fin =
        .error .DayGateNotPassed ∧
      applyTx (p, treasury)
        (distribute_fees hashv policy env p treasury pages fin) =
        (p, treasury)) ∧
    (∀ r, distribute_fees hashv policy env p treasury pages fin = .ok r →
      p.can_start_new_day env.now = true) := by
  have herr : p.can_start_new_day env.now = false →
      distribute_fees hashv policy env p treasury pages fin =
        .error .DayGateNotPassed := by
    intro hcan
    simp [distribute_fees, hpos, hflag, hnew, hcan]
  refine ⟨?_, fun hcan => ⟨herr hcan, by rw [herr hcan]; rfl⟩, fun r hr => ?_⟩
  · simp [ProgressPda.can_start_new_day]
  · cases hcan : p.can_start_new_day env.now
    · rw [herr hcan] at hr
      exact Except.noConfusion hr
    · rfl

/-- C6 witness: a call one day later but only 86350 time units after the last
distribution fails with `DayGateNotPassed` and commits nothing. -/
theorem C6_day_gate_witness :
    distribute_fees demoHash demoPolicy
      ⟨86450, 5, 0, false, true, true, true, true, []⟩
      { initProgress "vault" 0 with last_distribution_ts := 100 } 0 [] false =
      .error .DayGateNotPassed ∧
    applyTx ({ initProgress "vault" 0 with last_distribution_ts := 100 }, 0)
      (distribute_fees demoHash demoPolicy
        ⟨86450, 5, 0, false, true, true, true, true, []⟩
        { initProgress "vault" 0 with last_distribution_ts := 100 } 0 []
        false) =
      ({ initProgress "vault" 0 with last_distribution_ts := 100 }, 0) :=
  (C6_day_gate demoHash demoPolicy _ _ _ _ _ rfl rfl (by decide)).2.1
    (by decide)

/-- The Progress record of a vault whose day 1 was finalized at time 86400. -/
def c5Progress : ProgressPda :=
  { initProgress "vault" 0 with
    day_finalized_flag := true
    last_distribution_ts := 86400
    day_epoch := 1 }

/-- C5 (code bug). Two days after finalization — the derived day index 3
strictly exceeds the stored index 1 and the 24-hour gate passes — the handler
still fails with `DayAlreadyFinalized`: it checks `day_finalized_flag`
before the new-day logic, so a finalized vault can never reopen, contrary to
the claim, the spec state machine, and `start_new_day` (which clears the
flag but has become unreachable). -/
theorem C5_finalized_blocks_reopen :
    (3 * 86400) / 86400 > c5Progress.day_epoch ∧
    c5Progress.can_start_new_day (3 * 86400) = true ∧
    distribute_fees demoHash demoPolicy
      ⟨3 * 86400, 5, 0, false, true, true, true, true, []⟩
      c5Progress 0 [] false = .error .DayAlreadyFinalized := by
  refine ⟨by norm_num [c5Progress, initProgress], by decide, ?_⟩
  simp [distribute_fees, c5Progress, initProgress]

/-- A successful pagination pass returns cursor-plus-page-count and implies
every submitted page index is at least the starting cursor. -/
theorem validatePages_ok_bound (hashv : List (List Nat) → Nat) :
    ∀ (pages : List InvestorPage) (e r : Nat),
    validatePages hashv pages e = .ok r →
    r = e + pages.length ∧ ∀ pg ∈ pages, e ≤ pg.page_index := by
  intro pages
  induction pages with
  | nil =>
    intro e r h
    simp only [validatePages, Except.ok.injEq] at h
    simp [h]
  | cons pg rest ih =>
    intro e r h
    simp only [validatePages] at h
    by_cases h1 : pg.page_index = e
    · rw [if_pos h1] at h
      by_cases h2 : pg.page_hash = hashv (pageChunks pg)
      · rw [if_pos h2] at h
        by_cases h3 : e + 1 < 2 ^ 64
        · rw [if_pos h3] at h
          obtain ⟨hr, hall⟩ := ih (e + 1) r h
          constructor
          · simp only [List.length_cons]
            omega
          · intro q hq
            rcases List.mem_cons.mp hq with rfl | hq2
            · exact le_of_eq h1.symm
            · exact le_trans (Nat.le_succ e) (hall q hq2)
        · rw [if_neg h3] at h
          exact absurd h (by simp)
      · rw [if_neg h2] at h
        exact absurd h (by simp)
    · rw [if_neg h1] at h
      exact absurd h (by simp)

/-- When the expected cursor cannot overflow, pagination validation either
succeeds (returning cursor-plus-page-count) or fails with
`InvalidPaginationState`. -/
theorem validatePages_total (hashv : List (List Nat) → Nat) :
    ∀ (pages : List InvestorPage) (e : Nat), e + pages.length < 2 ^ 64 →
    validatePages hashv pages e = .ok (e + pages.length) ∨
    validatePages hashv pages e = .error .InvalidPaginationState := by
  intro pages
  induction pages with
  | nil =>
    intro e h
    left
    simp [validatePages]
  | cons pg rest ih =>
    intro e h
    rw [List.length_cons] at h
    simp only [validatePages]
    by_cases h1 : pg.page_index = e
    · rw [if_pos h1]
      by_cases h2 : pg.page_hash = hashv (pageChunks pg)
      · rw [if_pos h2, if_pos (by omega)]
        rcases ih (e + 1) (by omega) with hok | herr
        · left
          rw [hok]
          congr 1
          simp only [List.length_cons]
          omega
        · right
          exact herr
      · rw [if_neg h2]
        right
        rfl
    · rw [if_neg h1]
      right
      rfl

/-- Under the reach-the-claim hypotheses, with a zero base amount and a
nonzero quote amount, the handler runs the payout path on the day-adjusted
Progress record. -/
theorem distribute_fees_nonzero_quote (hashv : List (List Nat) → Nat)
    (policy : PolicyPda) (env : CallEnv) (p : ProgressPda) (treasury : Nat)
    (pages : List InvestorPage) (fin : Bool)
    (hpos : env.positionMatches = true)
    (hflag : p.day_finalized_flag = false)
    (hgate : p.is_new_day env.now = true → p.can_start_new_day env.now = true)
    (hcp : env.cpAmmProgramValid = true)
    (hsf : env.streamflowProgramValid = true)
    (hlen : env.remaining.length = 2 * (joinedInvestors pages).length)
    (hev : env.eventAuthorityValid = true)
    (hbase : env.claimedBase = 0)
    (hq : env.claimedQuote ≠ 0) :
    distribute_fees hashv policy env p treasury pages fin =
      payoutStage hashv policy env.remaining env.now env.claimedQuote
        (treasury + env.claimedQuote)
        (dayAdjProgress p env.now env.claimedQuote) pages fin := by
  have hg : (p.is_new_day env.now && !p.can_start_new_day env.now) = false := by
    cases hnd : p.is_new_day env.now
    · rfl
    · simp [hgate hnd]
  simp [distribute_fees, hpos, hflag, hg, hcp, hsf, hev, hlen, hbase, hq]

/-- The pagination cursor of the day-adjusted Progress record: zero if a new
day was opened, the persisted cursor otherwise. -/
theorem dayAdjProgress_cursor (p : ProgressPda) (now q : Nat) :
    (dayAdjProgress p now q).pagination_cursor =
      (if p.is_new_day now then 0 else p.pagination_cursor) := by
  cases h : p.is_new_day now <;>
    simp [dayAdjProgress, h, ProgressPda.start_new_day]

/-- The day index of the day-adjusted Progress record. -/
theorem dayAdjProgress_epoch (p : ProgressPda) (now q : Nat) :
    (dayAdjProgress p now q).day_epoch =
      (if p.is_new_day now then now / 86400 else p.day_epoch) := by
  cases h : p.is_new_day now <;>
    simp [dayAdjProgress, h, ProgressPda.start_new_day]

/-- The cumulative amount of the day-adjusted Progress record. -/
theorem dayAdjProgress_cum (p : ProgressPda) (now q : Nat) :
    (dayAdjProgress p now q).cumulative_distributed_today =
      (if p.is_new_day now then 0 else p.cumulative_distributed_today) := by
  cases h : p.is_new_day now <;>
    simp [dayAdjProgress, h, ProgressPda.start_new_day]

/-- The carry-over balance of the day-adjusted Progress record (preserved
across the day boundary). -/
theorem dayAdjProgress_carry (p : ProgressPda) (now q : Nat) :
    (dayAdjProgress p now q).carry_over_lamports = p.carry_over_lamports := by
  cases h : p.is_new_day now <;>
    simp [dayAdjProgress, h, ProgressPda.start_new_day]

/-- The expected-page-count of the day-adjusted Progress record (preserved
across the day boundary). -/
theorem dayAdjProgress_tpe (p : ProgressPda) (now q : Nat) :
    (dayAdjProgress p now q).total_pages_expected =
      p.total_pages_expected := by
  cases h : p.is_new_day now <;>
    simp [dayAdjProgress, h, ProgressPda.start_new_day]

/-- Whether a call result is a success. -/
def callSucceeded (r : Except FeeRouterError CallResult) : Bool :=
  match r with
  | .ok _ => true
  | .error _ => false

/-- C3 (amended with the nonzero-claim proviso).  For a call that claims a
nonzero distributable amount and submits a non-empty page list: a successful
call implies every page passed the cursor/hash validation (with the expected
cursor starting at the persisted value — zero if a new day just opened — and
incrementing per page); any validation failure fails the whole call with
`InvalidPaginationState` (before any payout, since a failed call commits
nothing); and a page with index below the starting cursor always fails the
call with `InvalidPaginationState`. -/
theorem C3_pagination (hashv : List (List Nat) → Nat) (policy : PolicyPda)
    (env : CallEnv) (p : ProgressPda) (treasury : Nat)
    (pages : List InvestorPage) (fin : Bool)
    (hpos : env.positionMatches = true)
    (hflag : p.day_finalized_flag = false)
    (hgate : p.is_new_day env.now = true → p.can_start_new_day env.now = true)
    (hcp : env.cpAmmProgramValid = true)
    (hsf : env.streamflowProgramValid = true)
    (hlen : env.remaining.length = 2 * (joinedInvestors pages).length)
    (hev : env.eventAuthorityValid = true)
    (hbase : env.claimedBase = 0)
    (hq : env.claimedQuote ≠ 0)
    (hne : pages ≠ [])
    (hovf : (if p.is_new_day env.now then 0 else p.pagination_cursor) +
      pages.length < 2 ^ 64) :
    (∀ r, distribute_fees hashv policy env p treasury pages fin = .ok r →
      validatePages hashv pages
        (if p.is_new_day env.now then 0 else p.pagination_cursor) =
        .ok ((if p.is_new_day env.now then 0 else p.pagination_cursor) +
          pages.length)) ∧
    (validatePages hashv pages
        (if p.is_new_day env.now then 0 else p.pagination_cursor) =
        .error .InvalidPaginationState →
      distribute_fees hashv policy env p treasury pages fin =
        .error .InvalidPaginationState) ∧
    (∀ pg ∈ pages,
      pg.page_index <
        (if p.is_new_day env.now then 0 else p.pagination_cursor) →
      distribute_fees hashv policy env p treasury pages fin =
        .error .InvalidPaginationState) := by
  have hred := distribute_fees_nonzero_quote hashv policy env p treasury
    pages fin hpos hflag hgate hcp hsf hlen hev hbase hq
  have herrcase : validatePages hashv pages
      (if p.is_new_day env.now then 0 else p.pagination_cursor) =
      .error .InvalidPaginationState →
      distribute_fees hashv policy env p treasury pages fin =
        .error .InvalidPaginationState := by
    intro hv
    rw [hred]
    simp only [payoutStage, dayAdjProgress_cursor, hv]
  refine ⟨fun r hr => ?_, herrcase, fun pg hpg hlt => ?_⟩
  · rcases validatePages_total hashv pages _ hovf with hok | herr
    · exact hok
    · rw [herrcase herr] at hr
      exact absurd hr (by simp)
  · rcases validatePages_total hashv pages _ hovf with hok | herr
    · have := (validatePages_ok_bound hashv pages _ _ hok).2 pg hpg
      omega
    · exact herrcase herr

/-- C3 witness: a concrete nonzero-claim call whose single page carries index
3 against expected cursor 0 fails with `InvalidPaginationState`. -/
theorem C3_pagination_witness :
    distribute_fees demoHash demoPolicy
      ⟨100, 5, 0, false, true, true, true, true, []⟩
      (initProgress "vault" 0) 0 [⟨3, 0, []⟩] false =
      .error .InvalidPaginationState :=
  (C3_pagination demoHash demoPolicy
      ⟨100, 5, 0, false, true, true, true, true, []⟩
      (initProgress "vault" 0) 0 [⟨3, 0, []⟩] false
      rfl rfl (fun h => by simp [ProgressPda.is_new_day, initProgress] at h)
      rfl rfl rfl rfl rfl (by decide) (by simp)
      (by norm_num [ProgressPda.is_new_day, initProgress])).2.1 (by decide)

/-- C3 counterexample: when the claim step yields a zero distributable
amount, the very same mismatched page (index 3 against cursor 0) does NOT
fail the call — the handler returns success without validating pages, so the
claim as stated (any mismatch fails the whole call) is false. -/
theorem C3_pagination_cex :
    callSucceeded (distribute_fees demoHash demoPolicy
      ⟨100, 0, 0, false, true, true, true, true, []⟩
      (initProgress "vault" 0) 0 [⟨3, 0, []⟩] false) = true ∧
    validatePages demoHash [⟨3, 0, []⟩] 0 =
      .error .InvalidPaginationState := by decide

/-- Inversion of `commitStage` on success: the committed Progress record and
outputs in terms of the stage inputs. -/
theorem commitStage_ok (now q t1 len : Nat) (fin : Bool) (p3 : ProgressPda)
    (d tt u : Nat) (r : CallResult)
    (h : commitStage now q t1 len fin p3 d tt u = .ok r) :
    r.progress.day_epoch = p3.day_epoch ∧
    r.progress.cumulative_distributed_today =
      (p3.cumulative_distributed_today + d) % 2 ^ 128 ∧
    r.progress.carry_over_lamports = (p3.carry_over_lamports + u) % 2 ^ 64 ∧
    r.progress.day_finalized_flag =
      (if fin then true else p3.day_finalized_flag) ∧
    r.progress.pagination_cursor =
      (if fin then 0 else p3.pagination_cursor + len) ∧
    (fin = true → p3.total_pages_expected ≠ 0 →
      p3.pagination_cursor + len = p3.total_pages_expected) ∧
    r.out.claimedQuote = q ∧ r.out.investorPaid = tt ∧ r.out.dust = u ∧
    (fin = false → r.out.creatorPaid = 0) ∧
    (fin = true → r.out.creatorPaid =
      (if 0 < q - (p3.cumulative_distributed_today + d) % 2 ^ 128 -
          (p3.carry_over_lamports + u) % 2 ^ 64 then
        (q - (p3.cumulative_distributed_today + d) % 2 ^ 128 -
          (p3.carry_over_lamports + u) % 2 ^ 64) % 2 ^ 64
      else 0)) := by
  unfold commitStage at h
  simp only [ProgressPda.add_investor_distribution] at h
  by_cases c1 : p3.day_investor_distributed + d % 2 ^ 64 < 2 ^ 64
  · rw [if_pos c1] at h
    simp only at h
    by_cases c2 : p3.pagination_cursor + len < 2 ^ 64
    · rw [if_pos c2] at h
      by_cases c3 : p3.day_investor_distributed + d % 2 ^ 64 ≤
          p3.day_investor_pool_target
      · rw [if_pos c3] at h
        cases fin
        · simp only [Bool.false_eq_true, if_false] at h
          injection h with h2
          subst h2
          refine ⟨?_, ?_, ?_, ?_, ?_, ?_, ?_, ?_, ?_, ?_, ?_⟩ <;> simp
        · simp only [if_true] at h
          by_cases c4 : p3.total_pages_expected = 0
          · rw [if_pos c4] at h
            simp only at h
            injection h with h2
            subst h2
            refine ⟨?_, ?_, ?_, ?_, ?_, fun _ hne2 => absurd c4 hne2,
              ?_, ?_, ?_, ?_, ?_⟩ <;>
              simp [ProgressPda.finalize_day]
          · rw [if_neg c4] at h
            by_cases c5 : p3.total_pages_expected =
                p3.pagination_cursor + len
            · rw [if_pos c5] at h
              simp only at h
              injection h with h2
              subst h2
              refine ⟨?_, ?_, ?_, ?_, ?_, fun _ _ => c5.symm,
                ?_, ?_, ?_, ?_, ?_⟩ <;>
                simp [ProgressPda.finalize_day]
            · rw [if_neg c5] at h
              exact absurd h (by simp)
      · rw [if_neg c3] at h
        exact absurd h (by simp)
    · rw [if_neg c2] at h
      exact absurd h (by simp)
  · rw [if_neg c1] at h
    exact absurd h (by simp)

/-- Inversion of `payoutStage` on success: every stage succeeded and the
result came from `commitStage` on the target-frozen record. -/
theorem payoutStage_ok_inv (hashv : List (List Nat) → Nat)
    (policy : PolicyPda) (remaining : List AccountSlot)
    (now q t1 : Nat) (p2 : ProgressPda) (pages : List InvestorPage)
    (fin : Bool) (r : CallResult)
    (h : payoutStage hashv policy remaining now q t1 p2 pages fin = .ok r) :
    ∃ v L bps ifq D T U,
      validatePages hashv pages p2.pagination_cursor = .ok v ∧
      calcTotalLocked remaining (joinedInvestors pages) 0 0 = .ok L ∧
      DistributionMath.calculate_eligible_bps L policy.y0_total_allocation
        policy.investor_fee_share_bps = .ok bps ∧
      DistributionMath.calculate_investor_fee_quote q bps = .ok ifq ∧
      handlerPages remaining L
        (DistributionMath.apply_daily_cap ifq policy.daily_cap_quote_lamports
          p2.cumulative_distributed_today)
        policy.min_payout_lamports pages 0 (0, 0, 0) = .ok (D, T, U) ∧
      commitStage now q t1 pages.length fin
        (if p2.pages_processed_today = 0 then
          p2.set_day_targets (L % 2 ^ 64)
            ((DistributionMath.apply_daily_cap ifq
              policy.daily_cap_quote_lamports
              p2.cumulative_distributed_today) % 2 ^ 64)
            (q - (DistributionMath.apply_daily_cap ifq
              policy.daily_cap_quote_lamports
              p2.cumulative_distributed_today) % 2 ^ 64)
        else p2) D T U = .ok r := by
  unfold payoutStage at h
  cases hv : validatePages hashv pages p2.pagination_cursor with
  | error e => rw [hv] at h; exact absurd h (by simp)
  | ok v =>
  rw [hv] at h
  simp only at h
  cases hL : calcTotalLocked remaining (joinedInvestors pages) 0 0 with
  | error e => rw [hL] at h; exact absurd h (by simp)
  | ok L =>
  rw [hL] at h
  simp only at h
  cases hb : DistributionMath.calculate_eligible_bps L
      policy.y0_total_allocation policy.investor_fee_share_bps with
  | error e => rw [hb] at h; exact absurd h (by simp)
  | ok bps =>
  rw [hb] at h
  simp only at h
  cases hifq : DistributionMath.calculate_investor_fee_quote q bps with
  | error e => rw [hifq] at h; exact absurd h (by simp)
  | ok ifq =>
  rw [hifq] at h
  simp only at h
  cases hhp : handlerPages remaining L
      (DistributionMath.apply_daily_cap ifq policy.daily_cap_quote_lamports
        p2.cumulative_distributed_today)
      policy.min_payout_lamports pages 0 (0, 0, 0) with
  | error e => rw [hhp] at h; exact absurd h (by simp)
  | ok dtu =>
  obtain ⟨D, T, U⟩ := dtu
  rw [hhp] at h
  simp only at h
  exact ⟨v, L, bps, ifq, D, T, U, rfl, rfl, hb, hifq, hhp, h⟩

/-- Inversion of the handler on success: the day was not finalized, and the
result is the zero-claim result (with finalization if requested) or came from
the payout path. -/
theorem distribute_fees_ok_inv (hashv : List (List Nat) → Nat)
    (policy : PolicyPda) (env : CallEnv) (p : ProgressPda) (t : Nat)
    (pages : List InvestorPage) (fin : Bool) (r : CallResult)
    (h : distribute_fees hashv policy env p t pages fin = .ok r) :
    p.day_finalized_flag = false ∧
    ((env.claimedQuote = 0 ∧
      ((fin = true ∧
        r = ⟨(dayAdjProgress p env.now 0).finalize_day env.now 0 0, t,
          ⟨0, 0, 0, 0⟩⟩) ∨
       (fin = false ∧
        r = ⟨dayAdjProgress p env.now 0, t, ⟨0, 0, 0, 0⟩⟩))) ∨
     (env.claimedQuote ≠ 0 ∧
      payoutStage hashv policy env.remaining env.now env.claimedQuote
        (t + env.claimedQuote) (dayAdjProgress p env.now env.claimedQuote)
        pages fin = .ok r)) := by
  unfold distribute_fees at h
  cases hpos : env.positionMatches with
  | false => rw [hpos] at h; exact absurd h (by simp)
  | true =>
  rw [hpos] at h
  rw [if_neg (by decide : ¬(true = false))] at h
  cases hflag : p.day_finalized_flag with
  | true =>
    rw [hflag] at h
    rw [if_pos rfl] at h
    exact absurd h (by simp)
  | false =>
  rw [hflag] at h
  rw [if_neg (by decide : ¬(false = true))] at h
  cases hgb : (p.is_new_day env.now && !p.can_start_new_day env.now) with
  | true => rw [hgb] at h; rw [if_pos rfl] at h; exact absurd h (by simp)
  | false =>
  rw [hgb] at h
  rw [if_neg (by decide : ¬(false = true))] at h
  cases hcp : env.cpAmmProgramValid with
  | false => rw [hcp] at h; rw [if_pos rfl] at h; exact absurd h (by simp)
  | true =>
  rw [hcp] at h
  rw [if_neg (by decide : ¬(true = false))] at h
  cases hsf : env.streamflowProgramValid with
  | false => rw [hsf] at h; rw [if_pos rfl] at h; exact absurd h (by simp)
  | true =>
  rw [hsf] at h
  rw [if_neg (by decide : ¬(true = false))] at h
  by_cases hlen : env.remaining.length = 2 * (joinedInvestors pages).length
  case neg => rw [if_pos hlen] at h; exact absurd h (by simp)
  case pos =>
  rw [if_neg (not_not_intro hlen)] at h
  cases hev : env.eventAuthorityValid with
  | false => rw [hev] at h; rw [if_pos rfl] at h; exact absurd h (by simp)
  | true =>
  rw [hev] at h
  rw [if_neg (by decide : ¬(true = false))] at h
  by_cases hbase : env.claimedBase = 0
  case neg => rw [if_pos hbase] at h; exact absurd h (by simp)
  case pos =>
  rw [if_neg (not_not_intro hbase)] at h
  simp only at h
  by_cases hq : env.claimedQuote = 0
  · rw [if_pos hq] at h
    rw [if_pos hq] at h
    refine ⟨rfl, Or.inl ⟨hq, ?_⟩⟩
    cases fin
    · simp only [Bool.false_eq_true, if_false] at h
      right
      refine ⟨rfl, ?_⟩
      rw [hq] at h
      injection h with h2
      exact h2.symm
    · simp only [if_true] at h
      left
      refine ⟨rfl, ?_⟩
      rw [hq] at h
      injection h with h2
      exact h2.symm
  · rw [if_neg hq] at h
    rw [if_neg hq] at h
    exact ⟨rfl, Or.inr ⟨hq, h⟩⟩

/-- The per-day target freeze does not move the pagination cursor. -/
theorem targetsIte_cursor (c : Prop) [Decidable c] (p : ProgressPda)
    (a b d : Nat) :
    (if c then p.set_day_targets a b d else p).pagination_cursor =
      p.pagination_cursor := by
  by_cases h : c <;> simp [h, ProgressPda.set_day_targets]

/-- The per-day target freeze does not move the day index. -/
theorem targetsIte_epoch (c : Prop) [Decidable c] (p : ProgressPda)
    (a b d : Nat) :
    (if c then p.set_day_targets a b d else p).day_epoch = p.day_epoch := by
  by_cases h : c <;> simp [h, ProgressPda.set_day_targets]

/-- The per-day target freeze does not move the cumulative amount. -/
theorem targetsIte_cum (c : Prop) [Decidable c] (p : ProgressPda)
    (a b d : Nat) :
    (if c then p.set_day_targets a b d else p).cumulative_distributed_today =
      p.cumulative_distributed_today := by
  by_cases h : c <;> simp [h, ProgressPda.set_day_targets]

/-- The per-day target freeze does not move the carry-over balance. -/
theorem targetsIte_carry (c : Prop) [Decidable c] (p : ProgressPda)
    (a b d : Nat) :
    (if c then p.set_day_targets a b d else p).carry_over_lamports =
      p.carry_over_lamports := by
  by_cases h : c <;> simp [h, ProgressPda.set_day_targets]

/-- The per-day target freeze does not move the expected page count. -/
theorem targetsIte_tpe (c : Prop) [Decidable c] (p : ProgressPda)
    (a b d : Nat) :
    (if c then p.set_day_targets a b d else p).total_pages_expected =
      p.total_pages_expected := by
  by_cases h : c <;> simp [h, ProgressPda.set_day_targets]

/-- The successful result of a call, with a fallback for the error case. -/
def okResult (fallback : CallResult)
    (r : Except FeeRouterError CallResult) : CallResult :=
  match r with
  | .ok c => c
  | .error _ => fallback

/-- C9 (amended: finalization also stamps the `updated_at` bookkeeping
timestamp).  `finalize_day` sets the finalized flag, stamps the last
distribution timestamp and `updated_at` with the current time, resets the
pagination cursor to zero, and leaves every other Progress field — in
particular the carry-over balance — unchanged; and across any successful
call, the pagination cursor decreases only when a new day is opened or the
call finalized the day. -/
theorem C9_finalize_frame (p : ProgressPda) (ts tc cp : Nat)
    (hashv : List (List Nat) → Nat) (policy : PolicyPda) (env : CallEnv)
    (p0 : ProgressPda) (t : Nat) (pages : List InvestorPage) (fin : Bool)
    (r : CallResult) :
    ((p.finalize_day ts tc cp).day_finalized_flag = true ∧
     (p.finalize_day ts tc cp).last_distribution_ts = ts ∧
     (p.finalize_day ts tc cp).pagination_cursor = 0 ∧
     (p.finalize_day ts tc cp).updated_at = ts ∧
     (p.finalize_day ts tc cp).carry_over_lamports = p.carry_over_lamports ∧
     (p.finalize_day ts tc cp).vault_seed = p.vault_seed ∧
     (p.finalize_day ts tc cp).day_epoch = p.day_epoch ∧
     (p.finalize_day ts tc cp).cumulative_distributed_today =
       p.cumulative_distributed_today ∧
     (p.finalize_day ts tc cp).page_in_progress_flag =
       p.page_in_progress_flag ∧
     (p.finalize_day ts tc cp).total_pages_expected =
       p.total_pages_expected ∧
     (p.finalize_day ts tc cp).pages_processed_today =
       p.pages_processed_today ∧
     (p.finalize_day ts tc cp).last_claimed_quote = p.last_claimed_quote ∧
     (p.finalize_day ts tc cp).last_claimed_base = p.last_claimed_base ∧
     (p.finalize_day ts tc cp).day_total_locked = p.day_total_locked ∧
     (p.finalize_day ts tc cp).day_investor_pool_target =
       p.day_investor_pool_target ∧
     (p.finalize_day ts tc cp).day_investor_distributed =
       p.day_investor_distributed ∧
     (p.finalize_day ts tc cp).day_creator_remainder_target =
       p.day_creator_remainder_target ∧
     (p.finalize_day ts tc cp).created_at = p.created_at) ∧
    (distribute_fees hashv policy env p0 t pages fin = .ok r →
      r.progress.pagination_cursor < p0.pagination_cursor →
      p0.day_epoch < r.progress.day_epoch ∨
        r.progress.day_finalized_flag = true) := by
  refine ⟨⟨rfl, rfl, rfl, rfl, rfl, rfl, rfl, rfl, rfl, rfl, rfl, rfl, rfl,
    rfl, rfl, rfl, rfl, rfl⟩, fun h hlt => ?_⟩
  obtain ⟨-, hcase⟩ :=
    distribute_fees_ok_inv hashv policy env p0 t pages fin r h
  rcases hcase with ⟨hq, hfin⟩ | ⟨hq, hps⟩
  · rcases hfin with ⟨hf, hr⟩ | ⟨hf, hr⟩
    · right
      rw [hr]
      rfl
    · rw [hr] at hlt ⊢
      cases hnd : p0.is_new_day env.now
      · rw [show (⟨dayAdjProgress p0 env.now 0, t, ⟨0, 0, 0, 0⟩⟩ :
            CallResult).progress = dayAdjProgress p0 env.now 0 from rfl,
          dayAdjProgress_cursor, hnd] at hlt
        simp at hlt
      · left
        rw [show (⟨dayAdjProgress p0 env.now 0, t, ⟨0, 0, 0, 0⟩⟩ :
            CallResult).progress = dayAdjProgress p0 env.now 0 from rfl,
          dayAdjProgress_epoch, hnd]
        simp only [if_true]
        simp [ProgressPda.is_new_day] at hnd
        exact hnd
  · obtain ⟨v, L, bps, ifq, D, T, U, hv, hL, hb, hifq, hhp, hcommit⟩ :=
      payoutStage_ok_inv hashv policy env.remaining env.now env.claimedQuote
        (t + env.claimedQuote) (dayAdjProgress p0 env.now env.claimedQuote)
        pages fin r hps
    obtain ⟨hepoch, hcum, hcarry, hflag2, hcursor, htpe, _, _, _, _, _⟩ :=
      commitStage_ok env.now env.claimedQuote (t + env.claimedQuote)
        pages.length fin _ D T U r hcommit
    cases fin
    · rw [if_neg (by decide : ¬(false = true))] at hcursor
      rw [targetsIte_cursor, dayAdjProgress_cursor] at hcursor
      rw [targetsIte_epoch, dayAdjProgress_epoch] at hepoch
      cases hnd : p0.is_new_day env.now
      · rw [hnd] at hcursor
        simp only [Bool.false_eq_true, if_false] at hcursor
        omega
      · left
        rw [hnd] at hepoch
        simp only [if_true] at hepoch
        rw [hepoch]
        simp [ProgressPda.is_new_day] at hnd
        exact hnd
    · right
      rw [hflag2]
      simp

/-- A Progress record with nonzero `updated_at` and carry, to exhibit the
fields finalization touches. -/
def c9Progress : ProgressPda :=
  { initProgress "vault" 0 with updated_at := 3, carry_over_lamports := 7 }

/-- A Progress record mid-day with cursor 5. -/
def c9Pre : ProgressPda :=
  { initProgress "vault" 0 with pagination_cursor := 5 }

/-- A zero-claim environment at time 100. -/
def c9Env : CallEnv := ⟨100, 0, 0, false, true, true, true, true, []⟩

/-- The committed result of the zero-claim final call on `c9Pre`. -/
def c9Result : CallResult :=
  okResult ⟨c9Pre, 0, ⟨0, 0, 0, 0⟩⟩
    (distribute_fees demoHash demoPolicy c9Env c9Pre 0 [] true)

/-- C9 counterexample: finalization at time 99 rewrites `updated_at` from 3
to 99 — a Progress field beyond the flag, the timestamp and the cursor is
touched, so the claim as stated is false. -/
theorem C9_finalize_frame_cex :
    (c9Progress.finalize_day 99 0 0).updated_at = 99 ∧
    c9Progress.updated_at = 3 := by decide

/-- C9 witness: carry-over survives a concrete finalization, and a concrete
successful call that shrank the cursor (5 to 0) indeed finalized the day. -/
theorem C9_finalize_frame_witness :
    (c9Progress.finalize_day 99 0 0).carry_over_lamports =
      c9Progress.carry_over_lamports ∧
    (c9Pre.day_epoch < c9Result.progress.day_epoch ∨
      c9Result.progress.day_finalized_flag = true) :=
  ⟨(C9_finalize_frame c9Progress 99 0 0 demoHash demoPolicy c9Env c9Pre 0
      [] true c9Result).1.2.2.2.2.1,
   (C9_finalize_frame c9Progress 99 0 0 demoHash demoPolicy c9Env c9Pre 0
      [] true c9Result).2 (by decide) (by decide)⟩

/-- C10 (amended with the nonzero-claim proviso for the consequence).
`start_new_day` resets the cumulative amount, the cursor, the page counter,
the finalized flag and all four per-day targets, stamps the day index and
`updated_at`, and preserves `total_pages_expected` as well as the carry-over
balance (and every other field); consequently a successful final-page call
that claims a nonzero amount while `total_pages_expected` is already fixed
must end with its advanced cursor equal to that fixed value (a zero-claim
final call finalizes without this check, which is why the claim needed
amending). -/
theorem C10_start_new_day (p : ProgressPda) (ts : Nat)
    (hashv : List (List Nat) → Nat) (policy : PolicyPda) (env : CallEnv)
    (p0 : ProgressPda) (t : Nat) (pages : List InvestorPage) (fin : Bool)
    (r : CallResult) :
    ((p.start_new_day ts).cumulative_distributed_today = 0 ∧
     (p.start_new_day ts).pagination_cursor = 0 ∧
     (p.start_new_day ts).pages_processed_today = 0 ∧
     (p.start_new_day ts).day_finalized_flag = false ∧
     (p.start_new_day ts).day_total_locked = 0 ∧
     (p.start_new_day ts).day_investor_pool_target = 0 ∧
     (p.start_new_day ts).day_investor_distributed = 0 ∧
     (p.start_new_day ts).day_creator_remainder_target = 0 ∧
     (p.start_new_day ts).day_epoch = ts / 86400 ∧
     (p.start_new_day ts).updated_at = ts ∧
     (p.start_new_day ts).total_pages_expected = p.total_pages_expected ∧
     (p.start_new_day ts).carry_over_lamports = p.carry_over_lamports ∧
     (p.start_new_day ts).last_distribution_ts = p.last_distribution_ts ∧
     (p.start_new_day ts).last_claimed_quote = p.last_claimed_quote ∧
     (p.start_new_day ts).last_claimed_base = p.last_claimed_base ∧
     (p.start_new_day ts).vault_seed = p.vault_seed ∧
     (p.start_new_day ts).page_in_progress_flag = p.page_in_progress_flag ∧
     (p.start_new_day ts).created_at = p.created_at) ∧
    (distribute_fees hashv policy env p0 t pages fin = .ok r →
      fin = true → env.claimedQuote ≠ 0 → p0.total_pages_expected ≠ 0 →
      (if p0.is_new_day env.now then 0 else p0.pagination_cursor) +
        pages.length = p0.total_pages_expected) := by
  refine ⟨⟨rfl, rfl, rfl, rfl, rfl, rfl, rfl, rfl, rfl, rfl, rfl, rfl, rfl,
    rfl, rfl, rfl, rfl, rfl⟩, fun h hf hq htpe => ?_⟩
  obtain ⟨-, hcase⟩ :=
    distribute_fees_ok_inv hashv policy env p0 t pages fin r h
  rcases hcase with ⟨hq0, -⟩ | ⟨-, hps⟩
  · exact absurd hq0 hq
  · obtain ⟨v, L, bps, ifq, D, T, U, hv, hL, hb, hifq, hhp, hcommit⟩ :=
      payoutStage_ok_inv hashv policy env.remaining env.now env.claimedQuote
        (t + env.claimedQuote) (dayAdjProgress p0 env.now env.claimedQuote)
        pages fin r hps
    obtain ⟨-, -, -, -, -, htpeEq, -, -, -, -, -⟩ :=
      commitStage_ok env.now env.claimedQuote (t + env.claimedQuote)
        pages.length fin _ D T U r hcommit
    rw [targetsIte_tpe, dayAdjProgress_tpe, targetsIte_cursor,
      dayAdjProgress_cursor] at htpeEq
    exact htpeEq hf htpe

/-- A single-investor page scenario: investor 9 with stream account 7. -/
def payInv : InvestorData := ⟨7, 9⟩

/-- The page committing to `payInv` under the concrete demo hash. -/
def payPage : InvestorPage :=
  ⟨0, demoHash (pageChunks ⟨0, 0, [payInv]⟩), [payInv]⟩

/-- The remaining accounts for `payPage`: the stream record (100 deposited,
0 withdrawn, recipient 9) and the investor ATA slot. -/
def payRemaining : List AccountSlot :=
  [⟨7, true, some ⟨100, 0, 9⟩⟩, ⟨8, true, none⟩]

/-- A claim of 1000 quote and no base at time 86410 over `payRemaining`. -/
def payEnv : CallEnv :=
  ⟨86410, 1000, 0, false, true, true, true, true, payRemaining⟩

/-- A policy with 50% ceiling, no cap, no minimum payout, `Y0 = 100`. -/
def payPolicy : PolicyPda := ⟨"vault", 1, 5000, 0, 0, false, 100, 2, 3, 4, 0, 0⟩

/-- A fresh Progress record whose expected page count was fixed at 3 by an
earlier day. -/
def c10Pre : ProgressPda :=
  { initProgress "vault" 0 with total_pages_expected := 3 }

/-- A zero-claim environment at time 100. -/
def c10Env : CallEnv := ⟨100, 0, 0, false, true, true, true, true, []⟩

/-- The committed result of the zero-claim final call on `c10Pre`. -/
def c10Result : CallResult :=
  okResult ⟨c10Pre, 0, ⟨0, 0, 0, 0⟩⟩
    (distribute_fees demoHash demoPolicy c10Env c10Pre 0 [] true)

/-- A fresh Progress record whose expected page count was fixed at 1. -/
def tpePre : ProgressPda :=
  { initProgress "vault" 0 with total_pages_expected := 1 }

/-- The committed result of the one-page nonzero-claim final call on
`tpePre`. -/
def tpeResult : CallResult :=
  okResult ⟨tpePre, 0, ⟨0, 0, 0, 0⟩⟩
    (distribute_fees demoHash payPolicy payEnv tpePre 0 [payPage] true)

/-- C10 counterexample: with `total_pages_expected = 3` and cursor 0, a
zero-claim final-page call succeeds and finalizes the day — no
`InvalidPaginationState` — so the claim as stated (every later final-page
call must end at the fixed count or fail) is false. -/
theorem C10_start_new_day_cex :
    callSucceeded (distribute_fees demoHash demoPolicy c10Env c10Pre 0 []
      true) = true ∧
    c10Result.progress.day_finalized_flag = true ∧
    c10Pre.total_pages_expected = 3 ∧
    c10Pre.pagination_cursor = 0 := by decide

set_option maxRecDepth 40000 in
/-- C10 witness: `start_new_day` keeps the fixed page count of `c10Pre`, and
a concrete successful nonzero-claim final call on `tpePre` ends with its
advanced cursor equal to the fixed count 1. -/
theorem C10_start_new_day_witness :
    (c10Pre.start_new_day 86400).total_pages_expected =
      c10Pre.total_pages_expected ∧
    (if tpePre.is_new_day 86410 then 0 else tpePre.pagination_cursor) +
      [payPage].length = tpePre.total_pages_expected :=
  ⟨(C10_start_new_day c10Pre 86400 demoHash payPolicy payEnv tpePre 0
      [payPage] true tpeResult).1.2.2.2.2.2.2.2.2.2.2.1,
   (C10_start_new_day c10Pre 86400 demoHash payPolicy payEnv tpePre 0
      [payPage] true tpeResult).2 (by decide) rfl (by decide) (by decide)⟩

/-- Floor division is superadditive: `a/c + b/c ≤ (a+b)/c`. -/
theorem nat_div_add_div_le (a b c : Nat) : a / c + b / c ≤ (a + b) / c := by
  rcases Nat.eq_zero_or_pos c with hc | hc
  · simp [hc]
  · rw [Nat.le_div_iff_mul_le hc]
    calc (a / c + b / c) * c = a / c * c + b / c * c := by ring
      _ ≤ a + b := Nat.add_le_add (Nat.div_mul_le_self a c)
        (Nat.div_mul_le_self b c)

/-- The sum of per-holder floor payouts `l * P / L` over a list of locked
amounts. -/
def floorSum (L P : Nat) (ls : List Nat) : Nat :=
  (ls.map (fun l => l * P / L)).sum

/-- `floorSum` of the empty list. -/
theorem floorSum_nil (L P : Nat) : floorSum L P [] = 0 := rfl

/-- `floorSum` of a cons. -/
theorem floorSum_cons (L P l : Nat) (ls : List Nat) :
    floorSum L P (l :: ls) = l * P / L + floorSum L P ls := by
  simp [floorSum]

/-- `floorSum` over an appended list. -/
theorem floorSum_append (L P : Nat) (ls1 ls2 : List Nat) :
    floorSum L P (ls1 ++ ls2) = floorSum L P ls1 + floorSum L P ls2 := by
  simp [floorSum]

/-- The sum of floors is at most the floor of the sum. -/
theorem floorSum_le_sumdiv (L P : Nat) :
    ∀ ls : List Nat, floorSum L P ls ≤ ls.sum * P / L := by
  intro ls
  induction ls with
  | nil => simp [floorSum]
  | cons l ls ih =>
    rw [floorSum_cons]
    calc l * P / L + floorSum L P ls ≤ l * P / L + ls.sum * P / L :=
          Nat.add_le_add_left ih _
      _ ≤ (l * P + ls.sum * P) / L := nat_div_add_div_le _ _ _
      _ = (l :: ls).sum * P / L := by
          rw [List.sum_cons, Nat.add_mul]

/-- When the locked amounts sum to at most the denominator, the floor
payouts sum to at most the pool. -/
theorem floorSum_le_pool (L P : Nat) (ls : List Nat) (h : ls.sum ≤ L) :
    floorSum L P ls ≤ P := by
  rcases Nat.eq_zero_or_pos L with hL | hL
  · subst hL
    have hz : ∀ ms : List Nat, floorSum 0 P ms = 0 := by
      intro ms
      induction ms with
      | nil => rfl
      | cons m ms ih => rw [floorSum_cons, Nat.div_zero, ih]
    rw [hz ls]
    exact Nat.zero_le P
  · calc floorSum L P ls ≤ ls.sum * P / L := floorSum_le_sumdiv L P ls
      _ ≤ L * P / L := Nat.div_le_div_right (Nat.mul_le_mul_right P h)
      _ = P := by rw [mul_comm]; exact Nat.mul_div_cancel P hL

/-- The lock-oracle reads of a run: investor `i` of the list (starting at
slot index `idx`) reads locked amount `ls[i]`. -/
def ReadsOk (remaining : List AccountSlot) :
    List InvestorData → Nat → List Nat → Prop
  | [], _, ls => ls = []
  | inv :: invs, idx, ls =>
    ∃ l ls2, ls = l :: ls2 ∧ readInvestorSlot remaining idx inv = .ok l ∧
      ReadsOk remaining invs (idx + 1) ls2

/-- A successful `calculate_total_locked` run determines the list of locked
amounts, and the returned total is their exact sum. -/
theorem calcTotalLocked_reads (remaining : List AccountSlot) :
    ∀ (invs : List InvestorData) (idx acc L : Nat),
    calcTotalLocked remaining invs idx acc = .ok L →
    ∃ ls, ReadsOk remaining invs idx ls ∧ acc + ls.sum = L := by
  intro invs
  induction invs with
  | nil =>
    intro idx acc L h
    simp only [calcTotalLocked, Except.ok.injEq] at h
    exact ⟨[], rfl, by simp [h]⟩
  | cons inv rest ih =>
    intro idx acc L h
    simp only [calcTotalLocked] at h
    cases hr : readInvestorSlot remaining idx inv with
    | error e => rw [hr] at h; exact absurd h (by simp)
    | ok l =>
      rw [hr] at h
      simp only at h
      by_cases hov : acc + l < 2 ^ 128
      · rw [if_pos hov] at h
        obtain ⟨ls, hRead, hsum⟩ := ih (idx + 1) (acc + l) L h
        refine ⟨l :: ls, ⟨l, ls, rfl, hr, hRead⟩, ?_⟩
        rw [List.sum_cons]
        omega
      · rw [if_neg hov] at h
        exact absurd h (by simp)

/-- A successful `calculate_investor_payout` returns exactly
`locked * pool / total` (`Nat` division by zero covers the zero-total
branch). -/
theorem payout_ok_val (l L P raw : Nat)
    (h : DistributionMath.calculate_investor_payout l L P = .ok raw) :
    raw = l * P / L := by
  unfold DistributionMath.calculate_investor_payout at h
  by_cases hL : L = 0
  · rw [if_pos hL] at h
    simp only [Except.ok.injEq] at h
    rw [← h, hL, Nat.div_zero]
  · rw [if_neg hL] at h
    by_cases hov : l * P < 2 ^ 128
    · rw [if_pos hov] at h
      simp only [Except.ok.injEq] at h
      exact h.symm
    · rw [if_neg hov] at h
      exact absurd h (by simp)

/-- Splitting the reads of an appended investor list. -/
theorem ReadsOk_append (remaining : List AccountSlot) :
    ∀ (xs ys : List InvestorData) (idx : Nat) (ls : List Nat),
    ReadsOk remaining (xs ++ ys) idx ls →
    ∃ ls1 ls2, ls = ls1 ++ ls2 ∧ ReadsOk remaining xs idx ls1 ∧
      ReadsOk remaining ys (idx + xs.length) ls2 := by
  intro xs
  induction xs with
  | nil =>
    intro ys idx ls h
    exact ⟨[], ls, rfl, rfl, by simpa using h⟩
  | cons x xs ih =>
    intro ys idx ls h
    obtain ⟨l, ls2, rfl, hr, hrest⟩ := h
    obtain ⟨ls1, ls3, rfl, hxs, hys⟩ := ih ys (idx + 1) ls2 hrest
    refine ⟨l :: ls1, ls3, rfl, ⟨l, ls1, rfl, hr, hxs⟩, ?_⟩
    have harith : idx + (x :: xs).length = idx + 1 + xs.length := by
      rw [List.length_cons]
      omega
    rw [harith]
    exact hys

/-- The amount a page distributes is bounded by the floor-payout sum of its
locked amounts (wrapping adds only ever shrink). -/
theorem pageFold_dist_le (remaining : List AccountSlot) (L P minp : Nat) :
    ∀ (invs : List InvestorData) (idx : Nat) (ls : List Nat)
      (d tr u D T U : Nat),
    ReadsOk remaining invs idx ls →
    pageFold remaining L P minp invs idx (d, tr, u) = .ok (D, T, U) →
    D ≤ d + floorSum L P ls := by
  intro invs
  induction invs with
  | nil =>
    intro idx ls d tr u D T U hR h
    have hls : ls = [] := hR
    subst hls
    simp only [pageFold, Except.ok.injEq, Prod.mk.injEq] at h
    rw [floorSum_nil]
    omega
  | cons inv rest ih =>
    intro idx ls d tr u D T U hR h
    obtain ⟨l, ls2, rfl, hr, hrest⟩ := hR
    rw [floorSum_cons]
    simp only [pageFold] at h
    rw [hr] at h
    simp only at h
    by_cases hl : l = 0
    · rw [if_pos hl] at h
      have hrec := ih (idx + 1) ls2 d tr u D T U hrest h
      rw [hl, Nat.zero_mul, Nat.zero_div]
      omega
    · rw [if_neg hl] at h
      cases hcp : DistributionMath.calculate_investor_payout l L P with
      | error e => rw [hcp] at h; exact absurd h (by simp)
      | ok raw =>
        rw [hcp] at h
        simp only at h
        have hraw : raw = l * P / L := payout_ok_val l L P raw hcp
        by_cases hmin : raw < minp
        · rw [if_pos hmin] at h
          have hrec := ih (idx + 1) ls2 d tr ((u + raw % 2 ^ 64) % 2 ^ 64)
            D T U hrest h
          rw [← hraw]
          omega
        · rw [if_neg hmin] at h
          have hrec := ih (idx + 1) ls2 ((d + raw) % 2 ^ 128)
            (tr + raw % 2 ^ 64) u D T U hrest h
          have hmod : (d + raw) % 2 ^ 128 ≤ d + raw := Nat.mod_le _ _
          rw [← hraw]
          omega

/-- Flattening a cons of pages. -/
theorem joined_cons (pg : InvestorPage) (rest : List InvestorPage) :
    joinedInvestors (pg :: rest) = pg.investors ++ joinedInvestors rest := by
  simp [joinedInvestors]

/-- The amount the whole payout loop distributes is bounded by the
floor-payout sum of all locked amounts of the call. -/
theorem handlerPages_dist_le (remaining : List AccountSlot)
    (L P minp : Nat) :
    ∀ (pages : List InvestorPage) (idx : Nat) (ls : List Nat)
      (d t u D T U : Nat),
    ReadsOk remaining (joinedInvestors pages) idx ls →
    handlerPages remaining L P minp pages idx (d, t, u) = .ok (D, T, U) →
    D ≤ d + floorSum L P ls := by
  intro pages
  induction pages with
  | nil =>
    intro idx ls d t u D T U hR h
    have hls : ls = [] := hR
    subst hls
    simp only [handlerPages, Except.ok.injEq, Prod.mk.injEq] at h
    rw [floorSum_nil]
    omega
  | cons pg rest ih =>
    intro idx ls d t u D T U hR h
    rw [joined_cons] at hR
    obtain ⟨ls1, ls2, rfl, h1, h2⟩ :=
      ReadsOk_append remaining pg.investors (joinedInvestors rest) idx ls hR
    simp only [handlerPages] at h
    cases hpf : pageFold remaining L P minp pg.investors idx (0, 0, 0) with
    | error e => rw [hpf] at h; exact absurd h (by simp)
    | ok pdtu =>
      obtain ⟨pd, pt, pu⟩ := pdtu
      rw [hpf] at h
      simp only at h
      by_cases hlen0 : pg.investors.length = 0
      · rw [if_pos hlen0] at h
        exact absurd h (by simp)
      · rw [if_neg hlen0] at h
        have hpd := pageFold_dist_le remaining L P minp pg.investors idx ls1
          0 0 0 pd pt pu h1 hpf
        have hrec := ih (idx + pg.investors.length) ls2 ((d + pd) % 2 ^ 128)
          (t + pt) ((u + pu) % 2 ^ 64) D T U h2 h
        have hmod : (d + pd) % 2 ^ 128 ≤ d + pd := Nat.mod_le _ _
        rw [floorSum_append]
        omega

/-- Finalization does not change the cumulative amount. -/
theorem finalize_day_cum (x : ProgressPda) (a b c : Nat) :
    (x.finalize_day a b c).cumulative_distributed_today =
      x.cumulative_distributed_today := rfl

/-- One successful call preserves the cap invariant: the new cumulative
amount still does not exceed a positive daily cap. -/
theorem cum_le_cap_step (hashv : List (List Nat) → Nat) (policy : PolicyPda)
    (env : CallEnv) (p : ProgressPda) (t : Nat) (pages : List InvestorPage)
    (fin : Bool) (r : CallResult)
    (h : distribute_fees hashv policy env p t pages fin = .ok r)
    (hcap : 0 < policy.daily_cap_quote_lamports)
    (ih : p.cumulative_distributed_today ≤ policy.daily_cap_quote_lamports) :
    r.progress.cumulative_distributed_today ≤
      policy.daily_cap_quote_lamports := by
  obtain ⟨-, hcase⟩ :=
    distribute_fees_ok_inv hashv policy env p t pages fin r h
  rcases hcase with ⟨hq, hfin⟩ | ⟨hq, hps⟩
  · rcases hfin with ⟨hf, hr⟩ | ⟨hf, hr⟩ <;> rw [hr]
    · show ((dayAdjProgress p env.now 0).finalize_day env.now 0
        0).cumulative_distributed_today ≤ _
      rw [finalize_day_cum, dayAdjProgress_cum]
      cases hnd : p.is_new_day env.now <;> simp [ih]
    · show (dayAdjProgress p env.now 0).cumulative_distributed_today ≤ _
      rw [dayAdjProgress_cum]
      cases hnd : p.is_new_day env.now <;> simp [ih]
  · obtain ⟨v, L, bps, ifq, D, T, U, hv, hL, hb, hifq, hhp, hcommit⟩ :=
      payoutStage_ok_inv hashv policy env.remaining env.now env.claimedQuote
        (t + env.claimedQuote) (dayAdjProgress p env.now env.claimedQuote)
        pages fin r hps
    obtain ⟨-, hcum, -, -, -, -, -, -, -, -, -⟩ :=
      commitStage_ok env.now env.claimedQuote (t + env.claimedQuote)
        pages.length fin _ D T U r hcommit
    obtain ⟨ls, hreads, hsum⟩ :=
      calcTotalLocked_reads env.remaining (joinedInvestors pages) 0 0 L hL
    have hD := handlerPages_dist_le env.remaining L
      (DistributionMath.apply_daily_cap ifq policy.daily_cap_quote_lamports
        (dayAdjProgress p env.now
          env.claimedQuote).cumulative_distributed_today)
      policy.min_payout_lamports pages 0 ls 0 0 0 D T U hreads hhp
    have hfl := floorSum_le_pool L
      (DistributionMath.apply_daily_cap ifq policy.daily_cap_quote_lamports
        (dayAdjProgress p env.now
          env.claimedQuote).cumulative_distributed_today)
      ls (by omega)
    have hcumA : (dayAdjProgress p env.now
        env.claimedQuote).cumulative_distributed_today ≤
        policy.daily_cap_quote_lamports := by
      rw [dayAdjProgress_cum]
      cases hnd : p.is_new_day env.now <;> simp [ih]
    have hcapped : DistributionMath.apply_daily_cap ifq
        policy.daily_cap_quote_lamports
        (dayAdjProgress p env.now
          env.claimedQuote).cumulative_distributed_today ≤
        policy.daily_cap_quote_lamports -
        (dayAdjProgress p env.now
          env.claimedQuote).cumulative_distributed_today := by
      unfold DistributionMath.apply_daily_cap
      rw [if_neg (Nat.pos_iff_ne_zero.mp hcap)]
      exact min_le_right _ _
    rw [hcum, targetsIte_cum]
    have hmod : ((dayAdjProgress p env.now
        env.claimedQuote).cumulative_distributed_today + D) % 2 ^ 128 ≤
        (dayAdjProgress p env.now
          env.claimedQuote).cumulative_distributed_today + D :=
      Nat.mod_le _ _
    omega

/-- C4.  When the daily cap is positive, `apply_daily_cap` is exactly
`min(investor_fee_quote, daily_cap - cumulative_distributed_today)` with
saturating subtraction, and `cumulative_distributed_today` never exceeds the
cap in any state reachable by initialization and successful calls. -/
theorem C4_daily_cap (hashv : List (List Nat) → Nat) (policy : PolicyPda)
    (p : ProgressPda) (q cap cum : Nat) :
    (cap ≠ 0 → DistributionMath.apply_daily_cap q cap cum =
      min q (cap - cum)) ∧
    (Reachable hashv policy p → 0 < policy.daily_cap_quote_lamports →
      p.cumulative_distributed_today ≤ policy.daily_cap_quote_lamports) := by
  constructor
  · intro hc
    simp [DistributionMath.apply_daily_cap, hc]
  · intro hreach hcap
    induction hreach with
    | init vs ts => simp [initProgress]
    | step hprev heq ih =>
      exact cum_le_cap_step _ _ _ _ _ _ _ _ heq hcap ih

/-- A policy with a positive daily cap of 800000. -/
def capPolicy : PolicyPda :=
  ⟨"vault", 1, 9000, 800000, 0, false, 1000, 2, 3, 4, 0, 0⟩

/-- C4 witness: a desired pool of 900000 against cap 800000 with nothing
distributed yet is capped to 800000, and the freshly initialized Progress
record satisfies the cap invariant. -/
theorem C4_daily_cap_witness :
    DistributionMath.apply_daily_cap 900000 800000 0 = 800000 ∧
    (initProgress "vault" 0).cumulative_distributed_today ≤
      capPolicy.daily_cap_quote_lamports :=
  ⟨((C4_daily_cap demoHash capPolicy (initProgress "vault" 0)
      900000 800000 0).1 (by norm_num)).trans (by norm_num),
   (C4_daily_cap demoHash capPolicy (initProgress "vault" 0)
      900000 800000 0).2 (Reachable.init "vault" 0) (by norm_num [capPolicy])⟩

/-- The total the payout loop actually transfers for a list of locked
amounts: zero-locked holders are skipped and sub-threshold payouts are
withheld. -/
def paidSum (L P minp : Nat) (ls : List Nat) : Nat :=
  (ls.map (fun l => if l = 0 then 0
    else if l * P / L < minp then 0 else l * P / L)).sum

/-- The total the payout loop adds to dust: the sub-threshold payouts of
nonzero-locked holders. -/
def dustSum (L P minp : Nat) (ls : List Nat) : Nat :=
  (ls.map (fun l => if l = 0 then 0
    else if l * P / L < minp then l * P / L else 0)).sum

/-- `paidSum` of a cons. -/
theorem paidSum_cons (L P minp l : Nat) (ls : List Nat) :
    paidSum L P minp (l :: ls) =
      (if l = 0 then 0 else if l * P / L < minp then 0 else l * P / L) +
        paidSum L P minp ls := by
  simp [paidSum]

/-- `dustSum` of a cons. -/
theorem dustSum_cons (L P minp l : Nat) (ls : List Nat) :
    dustSum L P minp (l :: ls) =
      (if l = 0 then 0 else if l * P / L < minp then l * P / L else 0) +
        dustSum L P minp ls := by
  simp [dustSum]

/-- `paidSum` over an appended list. -/
theorem paidSum_append (L P minp : Nat) (ls1 ls2 : List Nat) :
    paidSum L P minp (ls1 ++ ls2) =
      paidSum L P minp ls1 + paidSum L P minp ls2 := by
  simp [paidSum]

/-- `dustSum` over an appended list. -/
theorem dustSum_append (L P minp : Nat) (ls1 ls2 : List Nat) :
    dustSum L P minp (ls1 ++ ls2) =
      dustSum L P minp ls1 + dustSum L P minp ls2 := by
  simp [dustSum]

/-- Transfers plus dust never exceed the floor-payout sum. -/
theorem paid_add_dust_le_floorSum (L P minp : Nat) :
    ∀ ls : List Nat,
    paidSum L P minp ls + dustSum L P minp ls ≤ floorSum L P ls := by
  intro ls
  induction ls with
  | nil => simp [paidSum, dustSum, floorSum]
  | cons l ls ih =>
    rw [paidSum_cons, dustSum_cons, floorSum_cons]
    by_cases hl : l = 0
    · subst hl
      simp only [eq_self_iff_true, if_true, Nat.zero_mul, Nat.zero_div]
      omega
    · simp only [if_neg hl]
      by_cases hm : l * P / L < minp
      · simp only [if_pos hm]
        generalize l * P / L = w
        omega
      · simp only [if_neg hm]
        generalize l * P / L = w
        omega

/-- A single floor payout never exceeds the pool. -/
theorem raw_le_pool (l L P : Nat) (hle : l ≤ L) : l * P / L ≤ P := by
  rcases Nat.eq_zero_or_pos L with hL | hL
  · subst hL
    simp
  · have h1 : l * P / L ≤ L * P / L :=
      Nat.div_le_div_right (Nat.mul_le_mul_right P hle)
    have h2 : L * P / L = P := by
      rw [mul_comm]
      exact Nat.mul_div_cancel P hL
    omega

/-- A successful eligible-share computation returns at most 10000 bps. -/
theorem eligible_ok_le (a b c bps : Nat)
    (h : DistributionMath.calculate_eligible_bps a b c = .ok bps) :
    bps ≤ 10000 := by
  unfold DistributionMath.calculate_eligible_bps at h
  by_cases h1 : b = 0
  · rw [if_pos h1] at h
    exact absurd h (by simp)
  · rw [if_neg h1] at h
    by_cases h2 : a > b
    · rw [if_pos h2] at h
      exact absurd h (by simp)
    · rw [if_neg h2] at h
      by_cases h3 : a * 10000 < 2 ^ 128
      · rw [if_pos h3] at h
        simp only [Except.ok.injEq] at h
        rw [← h]
        exact le_trans (min_le_right _ _) (min_le_right _ _)
      · rw [if_neg h3] at h
        exact absurd h (by simp)

/-- The investor pool never exceeds the claimed amount. -/
theorem ifq_ok_le (Q bps ifq : Nat)
    (h : DistributionMath.calculate_investor_fee_quote Q bps = .ok ifq)
    (hbps : bps ≤ 10000) : ifq ≤ Q := by
  unfold DistributionMath.calculate_investor_fee_quote at h
  by_cases hov : Q * bps < 2 ^ 128
  · rw [if_pos hov] at h
    simp only [Except.ok.injEq] at h
    rw [← h]
    calc Q * bps / 10000 ≤ Q * 10000 / 10000 :=
        Nat.div_le_div_right (Nat.mul_le_mul_left Q hbps)
      _ = Q := Nat.mul_div_cancel Q (by norm_num)
  · rw [if_neg hov] at h
    exact absurd h (by simp)

/-- The capped pool never exceeds the uncapped pool. -/
theorem apply_daily_cap_le (q c m : Nat) :
    DistributionMath.apply_daily_cap q c m ≤ q := by
  unfold DistributionMath.apply_daily_cap
  by_cases hc : c = 0
  · rw [if_pos hc]
  · rw [if_neg hc]
    exact min_le_left _ _

/-- Exact accounting of one page: under the machine-representable bounds,
the page loop succeeds deterministically with the transfers, running total
and dust given by `paidSum` / `dustSum`. -/
theorem pageFold_exact (remaining : List AccountSlot) (L P minp : Nat)
    (hP : P < 2 ^ 64) :
    ∀ (invs : List InvestorData) (idx : Nat) (ls : List Nat)
      (d tr u D T U : Nat),
    ReadsOk remaining invs idx ls →
    (∀ l ∈ ls, l ≤ L) →
    d + paidSum L P minp ls < 2 ^ 128 →
    u + dustSum L P minp ls < 2 ^ 64 →
    pageFold remaining L P minp invs idx (d, tr, u) = .ok (D, T, U) →
    D = d + paidSum L P minp ls ∧ T = tr + paidSum L P minp ls ∧
      U = u + dustSum L P minp ls := by
  intro invs
  induction invs with
  | nil =>
    intro idx ls d tr u D T U hR hmem hdb hub h
    have hls : ls = [] := hR
    subst hls
    simp only [pageFold, Except.ok.injEq, Prod.mk.injEq] at h
    simp only [paidSum, dustSum, List.map_nil, List.sum_nil]
    omega
  | cons inv rest ih =>
    intro idx ls d tr u D T U hR hmem hdb hub h
    obtain ⟨l, ls2, rfl, hr, hrest⟩ := hR
    have hmem2 : ∀ x ∈ ls2, x ≤ L := fun x hx => hmem x (List.mem_cons_of_mem l hx)
    simp only [pageFold] at h
    rw [hr] at h
    simp only at h
    by_cases hl : l = 0
    · rw [if_pos hl] at h
      rw [paidSum_cons, if_pos hl] at hdb
      rw [dustSum_cons, if_pos hl] at hub
      rw [paidSum_cons, dustSum_cons, if_pos hl, if_pos hl]
      simp only [Nat.zero_add] at hdb hub ⊢
      exact ih (idx + 1) ls2 d tr u D T U hrest hmem2 hdb hub h
    · rw [if_neg hl] at h
      cases hcp : DistributionMath.calculate_investor_payout l L P with
      | error e => rw [hcp] at h; exact absurd h (by simp)
      | ok raw =>
        rw [hcp] at h
        simp only at h
        have hraw : raw = l * P / L := payout_ok_val l L P raw hcp
        have hrawP : raw ≤ P := by
          rw [hraw]
          exact raw_le_pool l L P (hmem l (List.mem_cons_self l ls2))
        have hraw64 : raw < 2 ^ 64 := lt_of_le_of_lt hrawP hP
        have hrawmod : raw % 2 ^ 64 = raw := Nat.mod_eq_of_lt hraw64
        rw [paidSum_cons, if_neg hl] at hdb
        rw [dustSum_cons, if_neg hl] at hub
        rw [paidSum_cons, dustSum_cons, if_neg hl, if_neg hl]
        by_cases hmin : raw < minp
        · rw [hraw] at hmin
          rw [if_pos hmin] at hdb
          rw [if_pos hmin] at hub
          rw [if_pos hmin, if_pos hmin]
          rw [← hraw] at hmin
          rw [if_pos hmin, hrawmod] at h
          simp only [Nat.zero_add] at hdb ⊢
          have humod : (u + raw) % 2 ^ 64 = u + raw := by
            apply Nat.mod_eq_of_lt
            rw [hraw] at hrawP ⊢
            omega
          rw [humod] at h
          have hub2 : (u + raw) + dustSum L P minp ls2 < 2 ^ 64 := by
            rw [hraw]
            omega
          obtain ⟨hD, hT, hU⟩ :=
            ih (idx + 1) ls2 d tr (u + raw) D T U hrest hmem2 hdb hub2 h
          refine ⟨hD, hT, ?_⟩
          rw [hU, hraw]
          omega
        · rw [hraw] at hmin
          rw [if_neg hmin] at hdb
          rw [if_neg hmin] at hub
          rw [if_neg hmin, if_neg hmin]
          rw [← hraw] at hmin
          rw [if_neg hmin, hrawmod] at h
          simp only [Nat.zero_add] at hub ⊢
          have hdmod : (d + raw) % 2 ^ 128 = d + raw := by
            apply Nat.mod_eq_of_lt
            rw [hraw]
            omega
          rw [hdmod] at h
          have hdb2 : (d + raw) + paidSum L P minp ls2 < 2 ^ 128 := by
            rw [hraw]
            omega
          obtain ⟨hD, hT, hU⟩ :=
            ih (idx + 1) ls2 (d + raw) (tr + raw) u D T U hrest hmem2
              hdb2 hub h
          refine ⟨?_, ?_, hU⟩
          · rw [hD, hraw]
            omega
          · rw [hT, hraw]
            omega

/-- Exact accounting of the whole payout loop over all pages of a call. -/
theorem handlerPages_exact (remaining : List AccountSlot) (L P minp : Nat)
    (hP : P < 2 ^ 64) :
    ∀ (pages : List InvestorPage) (idx : Nat) (ls : List Nat)
      (d t u D T U : Nat),
    ReadsOk remaining (joinedInvestors pages) idx ls →
    (∀ l ∈ ls, l ≤ L) →
    d + paidSum L P minp ls < 2 ^ 128 →
    u + dustSum L P minp ls < 2 ^ 64 →
    handlerPages remaining L P minp pages idx (d, t, u) = .ok (D, T, U) →
    D = d + paidSum L P minp ls ∧ T = t + paidSum L P minp ls ∧
      U = u + dustSum L P minp ls := by
  intro pages
  induction pages with
  | nil =>
    intro idx ls d t u D T U hR hmem hdb hub h
    have hls : ls = [] := hR
    subst hls
    simp only [handlerPages, Except.ok.injEq, Prod.mk.injEq] at h
    simp only [paidSum, dustSum, List.map_nil, List.sum_nil]
    omega
  | cons pg rest ih =>
    intro idx ls d t u D T U hR hmem hdb hub h
    rw [joined_cons] at hR
    obtain ⟨ls1, ls2, rfl, h1, h2⟩ :=
      ReadsOk_append remaining pg.investors (joinedInvestors rest) idx ls hR
    have hmem1 : ∀ l ∈ ls1, l ≤ L := fun l hl =>
      hmem l (List.mem_append_left ls2 hl)
    have hmem2 : ∀ l ∈ ls2, l ≤ L := fun l hl =>
      hmem l (List.mem_append_right ls1 hl)
    rw [paidSum_append] at hdb
    rw [dustSum_append] at hub
    simp only [handlerPages] at h
    cases hpf : pageFold remaining L P minp pg.investors idx (0, 0, 0) with
    | error e => rw [hpf] at h; exact absurd h (by simp)
    | ok pdtu =>
      obtain ⟨pd, pt, pu⟩ := pdtu
      rw [hpf] at h
      simp only at h
      by_cases hlen0 : pg.investors.length = 0
      · rw [if_pos hlen0] at h
        exact absurd h (by simp)
      · rw [if_neg hlen0] at h
        obtain ⟨hpd, hpt, hpu⟩ := pageFold_exact remaining L P minp hP
          pg.investors idx ls1 0 0 0 pd pt pu h1 hmem1 (by omega) (by omega)
          hpf
        simp only [Nat.zero_add] at hpd hpt hpu
        subst hpd hpt hpu
        have hdmod : (d + paidSum L P minp ls1) % 2 ^ 128 =
            d + paidSum L P minp ls1 := Nat.mod_eq_of_lt (by omega)
        have humod : (u + dustSum L P minp ls1) % 2 ^ 64 =
            u + dustSum L P minp ls1 := Nat.mod_eq_of_lt (by omega)
        rw [hdmod, humod] at h
        obtain ⟨hD, hT, hU⟩ := ih (idx + pg.investors.length) ls2
          (d + paidSum L P minp ls1) (t + paidSum L P minp ls1)
          (u + dustSum L P minp ls1) D T U h2 hmem2 (by omega) (by omega) h
        rw [paidSum_append, dustSum_append]
        omega

/-- Finalization does not change the carry-over balance. -/
theorem finalize_day_carry (x : ProgressPda) (a b c : Nat) :
    (x.finalize_day a b c).carry_over_lamports = x.carry_over_lamports := rfl

/-- C2 (amended: restricted to a day completed by a single call whose
starting carry-over is zero).  For a call that opens a new day, is marked
final and succeeds, the amount transferred to holders plus the creator
payout plus the increase of the carry-over balance equals the claimed
distributable amount exactly.  (For days whose carry-over starts nonzero, or
days spanning several claiming calls, the finalizer subtracts the entire
carry balance from only the final call's claim, and exact conservation
fails — see the counterexample.) -/
theorem C2_conservation (hashv : List (List Nat) → Nat) (policy : PolicyPda)
    (env : CallEnv) (p : ProgressPda) (t : Nat) (pages : List InvestorPage)
    (r : CallResult)
    (hnew : p.is_new_day env.now = true)
    (hcarry : p.carry_over_lamports = 0)
    (hq64 : env.claimedQuote < 2 ^ 64)
    (h : distribute_fees hashv policy env p t pages true = .ok r) :
    r.out.investorPaid + r.out.creatorPaid +
      (r.progress.carry_over_lamports - p.carry_over_lamports) =
      r.out.claimedQuote ∧
    r.progress.day_finalized_flag = true := by
  obtain ⟨-, hcase⟩ :=
    distribute_fees_ok_inv hashv policy env p t pages true r h
  rcases hcase with ⟨hq, hfin⟩ | ⟨hq, hps⟩
  · rcases hfin with ⟨-, hr⟩ | ⟨hcontra, -⟩
    · subst hr
      refine ⟨?_, rfl⟩
      show 0 + 0 + (((dayAdjProgress p env.now 0).finalize_day env.now 0
        0).carry_over_lamports - p.carry_over_lamports) = 0
      rw [finalize_day_carry, dayAdjProgress_carry]
      omega
    · exact absurd hcontra (by simp)
  · obtain ⟨v, L, bps, ifq, D, T, U, hv, hL, hb, hifq, hhp, hcommit⟩ :=
      payoutStage_ok_inv hashv policy env.remaining env.now env.claimedQuote
        (t + env.claimedQuote) (dayAdjProgress p env.now env.claimedQuote)
        pages true r hps
    have hbps10 := eligible_ok_le L policy.y0_total_allocation
      policy.investor_fee_share_bps bps hb
    have hifqQ := ifq_ok_le env.claimedQuote bps ifq hifq hbps10
    set capv := DistributionMath.apply_daily_cap ifq
      policy.daily_cap_quote_lamports
      (dayAdjProgress p env.now
        env.claimedQuote).cumulative_distributed_today with hcapdef
    have hcap_le : capv ≤ ifq := apply_daily_cap_le _ _ _
    have hcapQ : capv ≤ env.claimedQuote := le_trans hcap_le hifqQ
    have hP64 : capv < 2 ^ 64 := lt_of_le_of_lt hcapQ hq64
    obtain ⟨ls, hreads, hsum⟩ :=
      calcTotalLocked_reads env.remaining (joinedInvestors pages) 0 0 L hL
    have hsumL : ls.sum = L := by omega
    have hmem : ∀ l ∈ ls, l ≤ L := by
      intro l hl
      rw [← hsumL]
      exact List.single_le_sum (fun x _ => Nat.zero_le x) l hl
    have hpdf := paid_add_dust_le_floorSum L capv policy.min_payout_lamports
      ls
    have hfl := floorSum_le_pool L capv ls (le_of_eq hsumL)
    obtain ⟨hD, hT, hU⟩ := handlerPages_exact env.remaining L capv
      policy.min_payout_lamports hP64 pages 0 ls 0 0 0 D T U hreads hmem
      (by omega) (by omega) hhp
    simp only [Nat.zero_add] at hD hT hU
    obtain ⟨-, hcum, hcarry2, hflag, -, -, hoq, hoi, hod, -, hcreator⟩ :=
      commitStage_ok env.now env.claimedQuote (t + env.claimedQuote)
        pages.length true _ D T U r hcommit
    have hp2cum : (dayAdjProgress p env.now
        env.claimedQuote).cumulative_distributed_today = 0 := by
      rw [dayAdjProgress_cum, hnew]
      simp
    have hp2carry : (dayAdjProgress p env.now
        env.claimedQuote).carry_over_lamports = 0 := by
      rw [dayAdjProgress_carry, hcarry]
    have hcreator2 := hcreator rfl
    rw [targetsIte_cum, hp2cum, Nat.zero_add] at hcum hcreator2
    rw [targetsIte_carry, hp2carry, Nat.zero_add] at hcarry2 hcreator2
    have hDmod : D % 2 ^ 128 = D := Nat.mod_eq_of_lt (by omega)
    have hUmod : U % 2 ^ 64 = U := Nat.mod_eq_of_lt (by omega)
    rw [hDmod] at hcum hcreator2
    rw [hUmod] at hcarry2 hcreator2
    refine ⟨?_, by rw [hflag]; simp⟩
    rw [hoi, hcarry2, hcarry, hoq, Nat.sub_zero, hcreator2]
    by_cases hpos : 0 < env.claimedQuote - D - U
    · rw [if_pos hpos]
      have hsubmod : (env.claimedQuote - D - U) % 2 ^ 64 =
          env.claimedQuote - D - U := Nat.mod_eq_of_lt (by omega)
      rw [hsubmod]
      omega
    · rw [if_neg hpos]
      omega

/-- A fresh Progress record carrying 5 lamports of dust from earlier days. -/
def carryPre : ProgressPda :=
  { initProgress "vault" 0 with carry_over_lamports := 5 }

/-- The committed result of the single-call day on `carryPre`. -/
def c2CexResult : CallResult :=
  okResult ⟨carryPre, 0, ⟨0, 0, 0, 0⟩⟩
    (distribute_fees demoHash payPolicy payEnv carryPre 0 [payPage] true)

/-- The committed result of the single-call day on a zero-carry record. -/
def c2OkResult : CallResult :=
  okResult ⟨initProgress "vault" 0, 0, ⟨0, 0, 0, 0⟩⟩
    (distribute_fees demoHash payPolicy payEnv (initProgress "vault" 0) 0
      [payPage] true)

set_option maxRecDepth 40000 in
/-- C2 counterexample: a complete single-call day claiming 1000 with 5
lamports of pre-existing carry pays 500 to the holder and 495 to the creator
with no carry increase — 995, not the claimed 1000 — because the finalizer
subtracts the entire carry balance, so the conservation claim as stated is
false. -/
theorem C2_conservation_cex :
    callSucceeded (distribute_fees demoHash payPolicy payEnv carryPre 0
      [payPage] true) = true ∧
    c2CexResult.progress.day_finalized_flag = true ∧
    c2CexResult.out.claimedQuote = 1000 ∧
    c2CexResult.out.investorPaid + c2CexResult.out.creatorPaid +
      (c2CexResult.progress.carry_over_lamports -
        carryPre.carry_over_lamports) = 995 := by decide

set_option maxRecDepth 40000 in
/-- C2 witness: the same single-call day starting from a zero-carry record
conserves exactly: 500 to the holder plus 500 to the creator plus no carry
increase equals the claimed 1000. -/
theorem C2_conservation_witness :
    c2OkResult.out.investorPaid + c2OkResult.out.creatorPaid +
      (c2OkResult.progress.carry_over_lamports -
        (initProgress "vault" 0).carry_over_lamports) =
      c2OkResult.out.claimedQuote ∧
    c2OkResult.progress.day_finalized_flag = true :=
  C2_conservation demoHash payPolicy payEnv (initProgress "vault" 0) 0
    [payPage] c2OkResult (by decide) rfl (by decide) (by decide)
